import Mathlib

/-!
Verification development for the crypto portfolio tracker backend.

Part 1 models the FIFO trade matcher of
`services/trading_service.py` (`_match_trades_fifo`,
`_calculate_summary`, `_empty_summary`).

Part 2 models the signal state machines of
`strategies/technical/ma_crossover_strategy.py` and
`strategies/technical/trendline_breakout.py` (`generate_signals`),
and the RSI indicator of `strategies/technical/rsi_strategy.py`
(`calculate_rsi`).

Conventions of the embedding:
* Python floats are modelled as exact rationals `ℚ`.  All numeric
  values appearing in the verified statements are exactly
  representable, so no rounding questions arise for them.
* A Python trade dict may lack keys; every numeric key is read with
  `.get(key, 0)`, so a missing numeric key is indistinguishable from
  the value `0` and is modelled as a plain `ℚ` field.  A missing
  `'symbol'` key is observable (the record is skipped), so the symbol
  field is an `Option String`.
* `pandas` NaN values are modelled as `none : Option ℚ`.
-/

/-! ### Data model of the FIFO matcher -/

/-- One raw trade record, an element of the list handed to
`_match_trades_fifo`.  `symbol = none` models a dict without a
`'symbol'` key. -/
structure RawTrade where
  symbol : Option String
  side : String
  amount : ℚ
  price : ℚ
  timestamp : ℚ
  id : String
deriving DecidableEq, Repr

/-- An open buy lot held in `buy_queue` during the matching walk;
mirrors the dict literal appended at lines 128-133 of
`trading_service.py`. -/
structure Lot where
  amount : ℚ
  price : ℚ
  timestamp : ℚ
  id : String
deriving DecidableEq, Repr

/-- One realized-P&L record, mirroring the `completed_trade` dict
built at lines 147-157 of `trading_service.py`. -/
structure CompletedTrade where
  symbol : String
  buy_price : ℚ
  sell_price : ℚ
  amount : ℚ
  buy_timestamp : ℚ
  sell_timestamp : ℚ
  pnl : ℚ
  pnl_percentage : ℚ
  is_winning : Bool
deriving DecidableEq, Repr

/-- ASCII lower-casing of one character, the fragment of Python's
`str.lower()` relevant to side strings such as `"BUY"`. -/
def lowerChar (c : Char) : Char :=
  if 'A' ≤ c ∧ c ≤ 'Z' then Char.ofNat (c.toNat + 32) else c

/-- ASCII `str.lower()`. -/
def lowerStr (s : String) : String := ⟨s.data.map lowerChar⟩

/-- `trade.get('side', '').lower()` as used for grouping at line 108 of
`trading_service.py`. -/
def sideLower (t : RawTrade) : String := lowerStr t.side

/-- The inner `while sell_amount > 0 and buy_queue:` loop of
`_match_trades_fifo` (lines 134-170): pop lots from the front of the
buy queue, emitting one `CompletedTrade` per pop, until the sell
amount is used up or the queue empties.  Returns the emitted trades
together with the remaining queue.

In the branch where the front lot survives (`buy['amount'] > 0` after
the decrement) the remaining sell amount is
`sellAmount - min sellAmount buy.amount = 0`, so the Python loop
exits right after that iteration; the embedding returns directly.

Note `pnl_percentage` divides by `buy.price`; division is total on
`ℚ` (x / 0 = 0) where Python would raise `ZeroDivisionError` for a
zero-price lot. -/
def processSell (symbol : String) (sellPrice sellTimestamp : ℚ) :
    ℚ → List Lot → List CompletedTrade × List Lot
  | _, [] => ([], [])
  | sellAmount, buy :: rest =>
    if 0 < sellAmount then
      let matchAmount := min sellAmount buy.amount
      let pnl := (sellPrice - buy.price) * matchAmount
      let ct : CompletedTrade :=
        { symbol := symbol
          buy_price := buy.price
          sell_price := sellPrice
          amount := matchAmount
          buy_timestamp := buy.timestamp
          sell_timestamp := sellTimestamp
          pnl := pnl
          pnl_percentage := (sellPrice - buy.price) / buy.price * 100
          is_winning := decide (0 < pnl) }
      if buy.amount - matchAmount ≤ 0 then
        let next := processSell symbol sellPrice sellTimestamp (sellAmount - matchAmount) rest
        (ct :: next.1, next.2)
      else
        ([ct], { buy with amount := buy.amount - matchAmount } :: rest)
    else ([], buy :: rest)

/-- The time-ordered walk over one symbol's merged buy/sell sequence
(lines 126-170).  Buys (side exactly `'buy'`) are appended to the
queue; sells (side exactly `'sell'`) are matched when the queue is
non-empty; anything else is ignored.  Returns the emitted completed
trades and the final queue. -/
def fifoWalk (symbol : String) : List RawTrade → List Lot →
    List CompletedTrade × List Lot
  | [], queue => ([], queue)
  | t :: rest, queue =>
    if t.side = "buy" then
      fifoWalk symbol rest
        (queue ++ [{ amount := t.amount, price := t.price,
                     timestamp := t.timestamp, id := t.id }])
    else if t.side = "sell" ∧ queue ≠ [] then
      let step := processSell symbol t.price t.timestamp t.amount queue
      let next := fifoWalk symbol rest step.2
      (step.1 ++ next.1, next.2)
    else
      fifoWalk symbol rest queue

/-- Ordering by `trade.get('timestamp', 0)` used by every `sorted`
call in `_match_trades_fifo`. -/
def tsLe (a b : RawTrade) : Prop := a.timestamp ≤ b.timestamp

instance : DecidableRel tsLe := fun a b => inferInstanceAs (Decidable (a.timestamp ≤ b.timestamp))

instance : IsTotal RawTrade tsLe := ⟨fun a b => le_total a.timestamp b.timestamp⟩

instance : IsTrans RawTrade tsLe := ⟨fun _ _ _ h₁ h₂ => le_trans h₁ h₂⟩

/-- Python's `sorted(..., key=lambda x: x.get('timestamp', 0))` is a
stable sort by timestamp; a stable sort is uniquely determined by the
key order, and `List.insertionSort` with `tsLe` is that stable sort. -/
def sortTs (l : List RawTrade) : List RawTrade := List.insertionSort tsLe l

/-- The `'buys'` bucket of `trades_by_symbol[s]`: records carrying
symbol `s` whose lower-cased side is `'buy'`, in input order
(lines 101-114). -/
def groupBuys (trades : List RawTrade) (s : String) : List RawTrade :=
  trades.filter (fun t => decide (t.symbol = some s ∧ sideLower t = "buy"))

/-- The `'sells'` bucket of `trades_by_symbol[s]`. -/
def groupSells (trades : List RawTrade) (s : String) : List RawTrade :=
  trades.filter (fun t => decide (t.symbol = some s ∧ sideLower t = "sell"))

/-- A record populates `trades_by_symbol` iff it is a dict with a
`'symbol'` key and its lower-cased side is `'buy'` or `'sell'`. -/
def contributes (t : RawTrade) : Bool :=
  t.symbol.isSome && (sideLower t == "buy" || sideLower t == "sell")

/-- First-occurrence deduplication: the iteration order of the keys of
the `defaultdict` `trades_by_symbol` (dict insertion order).
`List.dedup` keeps the last occurrence, so deduplicating the reversal
and reversing back keeps the first occurrence. -/
def dedupFirst (l : List String) : List String := l.reverse.dedup.reverse

/-- The keys of `trades_by_symbol` in iteration order. -/
def symbolKeys (trades : List RawTrade) : List String :=
  dedupFirst ((trades.filter contributes).map (fun t => t.symbol.getD ""))

/-- The per-symbol part of `_match_trades_fifo` (lines 119-170): sort
the buys, sort the sells, merge and re-sort by timestamp, then walk.
Returns the completed trades together with the final buy queue. -/
def matchSymbolFull (trades : List RawTrade) (s : String) :
    List CompletedTrade × List Lot :=
  let buys := sortTs (groupBuys trades s)
  let sells := sortTs (groupSells trades s)
  fifoWalk s (sortTs (buys ++ sells)) []

/-- The completed trades `_match_trades_fifo` emits for one symbol. -/
def matchSymbol (trades : List RawTrade) (s : String) : List CompletedTrade :=
  (matchSymbolFull trades s).1

/-- `_match_trades_fifo(trades)`: concatenation of the per-symbol
outputs in dict insertion order. -/
def matchTradesFifo (trades : List RawTrade) : List CompletedTrade :=
  (symbolKeys trades).flatMap (fun s => matchSymbol trades s)

/-! ### Summary statistics -/

/-- The summary dict produced by `_calculate_summary` /
`_empty_summary`. -/
structure Summary where
  total_pnl : ℚ
  total_trades : ℕ
  winning_trades : ℕ
  losing_trades : ℕ
  win_rate : ℚ
  average_win : ℚ
  average_loss : ℚ
  best_trade : Option CompletedTrade
  worst_trade : Option CompletedTrade
deriving DecidableEq, Repr

/-- `_empty_summary` (lines 197-209). -/
def emptySummary : Summary :=
  { total_pnl := 0, total_trades := 0, winning_trades := 0,
    losing_trades := 0, win_rate := 0, average_win := 0,
    average_loss := 0, best_trade := none, worst_trade := none }

/-- Python's `round(x, 2)`.  Python uses round-half-to-even on binary
floats; on the exact values appearing in this development no half-cent
tie arises, so rounding half away from zero upward agrees with it. -/
def round2 (q : ℚ) : ℚ := (round (q * 100) : ℚ) / 100

/-- `max(completed_trades, key=lambda x: x['pnl'])`: the first
element attaining the maximal pnl. -/
def maxByPnl (cts : List CompletedTrade) : Option CompletedTrade :=
  cts.foldl
    (fun acc t =>
      match acc with
      | none => some t
      | some b => if b.pnl < t.pnl then some t else some b)
    none

/-- `min(completed_trades, key=lambda x: x['pnl'])`: the first
element attaining the minimal pnl. -/
def minByPnl (cts : List CompletedTrade) : Option CompletedTrade :=
  cts.foldl
    (fun acc t =>
      match acc with
      | none => some t
      | some b => if t.pnl < b.pnl then some t else some b)
    none

/-- `_calculate_summary` (lines 174-195). -/
def calculateSummary (cts : List CompletedTrade) : Summary :=
  if cts = [] then emptySummary
  else
    let winning := cts.filter (fun t => t.is_winning)
    let losing := cts.filter (fun t => !t.is_winning)
    { total_pnl := round2 ((cts.map (fun t => t.pnl)).sum)
      total_trades := cts.length
      winning_trades := winning.length
      losing_trades := losing.length
      win_rate := round2 ((winning.length : ℚ) / (cts.length : ℚ) * 100)
      average_win :=
        if winning = [] then 0
        else round2 (((winning.map (fun t => t.pnl)).sum) / (winning.length : ℚ))
      average_loss :=
        if losing = [] then 0
        else round2 (((losing.map (fun t => t.pnl)).sum) / (losing.length : ℚ))
      best_trade := maxByPnl cts
      worst_trade := minByPnl cts }

/-! ### Strategy signal state machines -/

/-- One row of the signal columns `buy_signal`, `sell_signal`,
`position` appended to the data frame by `generate_signals`. -/
structure Row where
  buy : ℕ
  sell : ℕ
  pos : ℤ
deriving DecidableEq, Repr

/-- The `current_signal` values; `HOLD_LONG` and `HOLD_CASH` stand for
the Python strings `"HOLD LONG"` and `"HOLD CASH"`, `HOLD` for the
bare default `"HOLD"`. -/
inductive Sig where
  | BUY
  | SELL
  | HOLD_LONG
  | HOLD_SHORT
  | HOLD_CASH
  | HOLD
deriving DecidableEq, Repr

/-- Rolling simple moving average with window `w`
(`prices.rolling(window=w).mean()`): defined from index `w - 1`
onward, NaN before. -/
def smaList (w : ℕ) (prices : List ℚ) : List (Option ℚ) :=
  (List.range prices.length).map
    (fun i =>
      if w ≤ i + 1 then some ((((prices.drop (i + 1 - w)).take w).sum) / (w : ℚ))
      else none)

/-- One iteration of the MA-crossover signal loop
(`ma_crossover_strategy.py` lines 87-108) at a bar whose previous and
current fast/slow MA values are given: skip on any NaN, golden cross
while flat buys, death cross while long sells. -/
def maStep (pf ps cf cs : Option ℚ) (pos : ℤ) : Row :=
  match pf, ps, cf, cs with
  | some pfv, some psv, some cfv, some csv =>
    if pfv ≤ psv ∧ csv < cfv ∧ pos = 0 then ⟨1, 0, 1⟩
    else if psv ≤ pfv ∧ cfv < csv ∧ pos = 1 then ⟨0, 1, 0⟩
    else ⟨0, 0, pos⟩
  | _, _, _, _ => ⟨0, 0, pos⟩

/-- The MA-crossover loop over bars `1, 2, ...`, carrying the previous
bar's MA values and the running position. -/
def maRows (pf ps : Option ℚ) (pos : ℤ) :
    List (Option ℚ) → List (Option ℚ) → List Row
  | f :: fs, s :: ss =>
    let r := maStep pf ps f s pos
    r :: maRows f s r.pos fs ss
  | _, _ => []

/-- The full signal-column rows of a MA-crossover run: bar 0 keeps the
initialized zeros, the loop starts at bar 1. -/
def maSignalRows (fast slow : List (Option ℚ)) : List Row :=
  match fast, slow with
  | f :: fs, s :: ss => ⟨0, 0, 0⟩ :: maRows f s 0 fs ss
  | _, _ => []

/-- The `current_signal` derivation of `ma_crossover_strategy.py`
lines 114-127: default `"HOLD"`, and when the last fast/slow MAs are
defined, `BUY` on fast above slow while flat, `SELL` on fast below
slow while long, `"HOLD LONG"` while long. -/
def maCurrentSignal (fast slow : List (Option ℚ)) (rows : List Row) : Sig :=
  match fast.getLast?, slow.getLast?, rows.getLast? with
  | some (some lf), some (some ls), some r =>
    if ls < lf ∧ r.pos = 0 then .BUY
    else if lf < ls ∧ r.pos = 1 then .SELL
    else if r.pos = 1 then .HOLD_LONG
    else .HOLD
  | _, _, _ => .HOLD

/-- A full MA-crossover run (`generate_signals` with `ma_type='sma'`)
over a close-price list: signal rows plus current signal. -/
def maGenerate (prices : List ℚ) (fastP slowP : ℕ) : List Row × Sig :=
  let fast := smaList fastP prices
  let slow := smaList slowP prices
  let rows := maSignalRows fast slow
  (rows, maCurrentSignal fast slow rows)

/-- One iteration of the trendline-breakout signal loop
(`trendline_breakout.py` lines 366-382), given the bar's
`support_cross`, `resist_cross` and `level_breaks` values. -/
def tlStep (sc rc lb : ℤ) (pos : ℤ) : Row :=
  if pos = 0 ∧ (sc = 1 ∨ rc = 1) then ⟨1, 0, 1⟩
  else if pos = 1 ∧ (sc = -1 ∨ rc = -1 ∨ lb = -1) then ⟨0, 1, 0⟩
  else ⟨0, 0, pos⟩

/-- The trendline-breakout loop over bars `1, 2, ...`. -/
def tlRows (pos : ℤ) : List (ℤ × ℤ × ℤ) → List Row
  | [] => []
  | c :: rest =>
    let r := tlStep c.1 c.2.1 c.2.2 pos
    r :: tlRows r.pos rest

/-- The full signal-column rows of a trendline-breakout run over the
per-bar `(support_cross, resist_cross, level_breaks)` columns; bar 0
keeps the initialized zeros and its cross values are never read. -/
def tlSignalRows (crosses : List (ℤ × ℤ × ℤ)) : List Row :=
  match crosses with
  | _ :: rest => ⟨0, 0, 0⟩ :: tlRows 0 rest
  | [] => []

/-- The `current_signal` derivation of `trendline_breakout.py` lines
390-399 (the code indexes `iloc[-1]`, so a run is non-empty; the
`none` case is a placeholder marker). -/
def tlCurrentSignal (rows : List Row) : Sig :=
  match rows.getLast? with
  | some r =>
    if r.buy = 1 then .BUY
    else if r.sell = 1 then .SELL
    else if r.pos = 1 then .HOLD_LONG
    else .HOLD_CASH
  | none => .HOLD

/-- The derivation rule as the specification states it: inspect only
the last row; `buy_signal==1 → BUY`, `elif sell_signal==1 → SELL`,
`elif position==1 → HOLD_LONG`, `elif position==-1 → HOLD_SHORT`,
`else HOLD_CASH`. -/
def specCurrentSignal (r : Row) : Sig :=
  if r.buy = 1 then .BUY
  else if r.sell = 1 then .SELL
  else if r.pos = 1 then .HOLD_LONG
  else if r.pos = -1 then .HOLD_SHORT
  else .HOLD_CASH

/-! ### RSI (`rsi_strategy.py` lines 64-72) -/

/-- `prices.diff()`: NaN at index 0, consecutive difference after. -/
def seriesDiff (prices : List ℚ) : List (Option ℚ) :=
  match prices with
  | [] => []
  | _ :: rest => none :: List.zipWith (fun prev cur => some (cur - prev)) prices rest

/-- `delta.where(delta > 0, 0)`: a NaN condition counts as false, so
the NaN at index 0 becomes `0`. -/
def gainPart (d : Option ℚ) : ℚ :=
  match d with
  | some v => if 0 < v then v else 0
  | none => 0

/-- `-delta.where(delta < 0, 0)`. -/
def lossPart (d : Option ℚ) : ℚ :=
  match d with
  | some v => if v < 0 then -v else 0
  | none => 0

/-- `series.rolling(window=w).mean()` over a NaN-free series. -/
def rollingMean (w : ℕ) (l : List ℚ) : List (Option ℚ) :=
  (List.range l.length).map
    (fun i =>
      if w ≤ i + 1 then some ((((l.drop (i + 1 - w)).take w).sum) / (w : ℚ))
      else none)

/-- Pointwise `rsi = 100 - 100/(1 + gain/loss)` under IEEE float
semantics: with `loss = 0` the quotient `gain/loss` is `±inf` for
`gain ≠ 0` (so rsi evaluates to `100`) and NaN for `gain = 0`.  For
the gain/loss series produced by `calculate_rsi` both inputs are
nonnegative, so `1 + gain/loss = 0` cannot arise in the last branch. -/
def rsiPoint (g lo : Option ℚ) : Option ℚ :=
  match g, lo with
  | some gv, some lv =>
    if lv = 0 then (if gv = 0 then none else some 100)
    else some (100 - 100 / (1 + gv / lv))
  | _, _ => none

/-- `calculate_rsi(prices, period)` of `rsi_strategy.py`. -/
def calculateRsi (prices : List ℚ) (period : ℕ) : List (Option ℚ) :=
  let delta := seriesDiff prices
  List.zipWith rsiPoint
    (rollingMean period (delta.map gainPart))
    (rollingMean period (delta.map lossPart))

/-! ### Shared evaluation lemmas -/

lemma lowerStr_buy : lowerStr "buy" = "buy" := by decide

lemma lowerStr_sell : lowerStr "sell" = "sell" := by decide

/-! ### Concrete scenarios -/

/-- Scenario 1 of the specification: buy 1.0 BTC @ 100 at t=0, sell
0.4 @ 120 at t=1, sell 0.6 @ 110 at t=2. -/
def scenario1Trades : List RawTrade :=
  [{ symbol := some "BTC/USDT", side := "buy", amount := 1, price := 100,
     timestamp := 0, id := "b1" },
   { symbol := some "BTC/USDT", side := "sell", amount := 0.4, price := 120,
     timestamp := 1, id := "s1" },
   { symbol := some "BTC/USDT", side := "sell", amount := 0.6, price := 110,
     timestamp := 2, id := "s2" }]

/-- Scenario 2 of the specification: a single sell with no prior buy. -/
def scenario2Trades : List RawTrade :=
  [{ symbol := some "BTC/USDT", side := "sell", amount := 1, price := 100,
     timestamp := 0, id := "s1" }]

/-- C1.  FIFO partial-fill matching: the scenario-1 input yields exactly
the two completed trades (buy@100, sell@120, quantity 0.4, pnl 8.0) and
(buy@100, sell@110, quantity 0.6, pnl 6.0) — each match quantity is
`min(sell_amount, lot.remaining_quantity)` — and the summary has
`total_pnl = 14.0` and `win_rate = 100`. -/
theorem fifo_scenario_partial_fill :
    matchTradesFifo scenario1Trades =
      [{ symbol := "BTC/USDT", buy_price := 100, sell_price := 120,
         amount := 0.4, buy_timestamp := 0, sell_timestamp := 1,
         pnl := 8, pnl_percentage := 20, is_winning := true },
       { symbol := "BTC/USDT", buy_price := 100, sell_price := 110,
         amount := 0.6, buy_timestamp := 0, sell_timestamp := 2,
         pnl := 6, pnl_percentage := 10, is_winning := true }]
    ∧ (calculateSummary (matchTradesFifo scenario1Trades)).total_pnl = 14
    ∧ (calculateSummary (matchTradesFifo scenario1Trades)).win_rate = 100 := by
  have h : matchTradesFifo scenario1Trades =
      [{ symbol := "BTC/USDT", buy_price := 100, sell_price := 120,
         amount := 0.4, buy_timestamp := 0, sell_timestamp := 1,
         pnl := 8, pnl_percentage := 20, is_winning := true },
       { symbol := "BTC/USDT", buy_price := 100, sell_price := 110,
         amount := 0.6, buy_timestamp := 0, sell_timestamp := 2,
         pnl := 6, pnl_percentage := 10, is_winning := true }] := by
    norm_num [matchTradesFifo, symbolKeys, dedupFirst, contributes, matchSymbol,
      matchSymbolFull, groupBuys, groupSells, sortTs, List.insertionSort,
      List.orderedInsert, tsLe, fifoWalk, processSell, sideLower, lowerStr_buy,
      lowerStr_sell, scenario1Trades, List.dedup, List.pwFilter, Option.getD]
    simp
  refine ⟨h, ?_, ?_⟩ <;>
    rw [h] <;>
    · norm_num [calculateSummary, round2, round_eq, emptySummary]
      simp

/-- C7.  Empty-ledger boundary: on an empty completed-trades list the
summary is the all-zero summary — `win_rate = 0`, `average_win = 0`,
`average_loss = 0`, zero totals, best/worst absent — and (division
being total in the embedding) no division error arises. -/
theorem empty_ledger_summary :
    calculateSummary [] = emptySummary
    ∧ emptySummary.win_rate = 0
    ∧ emptySummary.average_win = 0
    ∧ emptySummary.average_loss = 0
    ∧ emptySummary.total_pnl = 0
    ∧ emptySummary.total_trades = 0
    ∧ emptySummary.best_trade = none
    ∧ emptySummary.worst_trade = none := by
  refine ⟨?_, rfl, rfl, rfl, rfl, rfl, rfl, rfl⟩
  simp [calculateSummary]

/-! ### Unmatched sells are dropped -/

/-- Total open quantity held in a buy queue. -/
def lotTotal (queue : List Lot) : ℚ := (queue.map (fun l => l.amount)).sum

/-- Total matched quantity over a list of completed trades. -/
def matchedTotal (cts : List CompletedTrade) : ℚ :=
  (cts.map (fun c => c.amount)).sum

lemma lotTotal_nonneg {queue : List Lot} (h : ∀ l ∈ queue, 0 ≤ l.amount) :
    0 ≤ lotTotal queue := by
  apply List.sum_nonneg
  intro x hx
  simp only [List.mem_map] at hx
  obtain ⟨l, hl, rfl⟩ := hx
  exact h l hl

/-- When a sell's amount exceeds the whole queue, the queue is drained
completely: the emitted matches account for exactly the queue total
and the final queue is empty — the remainder simply vanishes. -/
lemma processSell_drains (s : String) (p ts : ℚ) :
    ∀ (queue : List Lot) (amt : ℚ), (∀ l ∈ queue, 0 ≤ l.amount) →
      lotTotal queue < amt →
      matchedTotal (processSell s p ts amt queue).1 = lotTotal queue
      ∧ (processSell s p ts amt queue).2 = [] := by
  intro queue
  induction queue with
  | nil =>
    intro amt _ _
    simp [processSell, matchedTotal, lotTotal]
  | cons buy rest ih =>
    intro amt hnn hlt
    have hb : 0 ≤ buy.amount := hnn buy (by simp)
    have hr : 0 ≤ lotTotal rest :=
      lotTotal_nonneg (fun l hl => hnn l (List.mem_cons_of_mem _ hl))
    have htot : lotTotal (buy :: rest) = buy.amount + lotTotal rest := by
      simp [lotTotal]
    rw [htot] at hlt
    have hamt : 0 < amt := lt_of_le_of_lt (add_nonneg hb hr) hlt
    have hble : buy.amount ≤ amt :=
      le_of_lt (lt_of_le_of_lt (le_add_of_nonneg_right hr) hlt)
    have hmin : min amt buy.amount = buy.amount := min_eq_right hble
    obtain ⟨ih1, ih2⟩ := ih (amt - buy.amount)
      (fun l hl => hnn l (List.mem_cons_of_mem _ hl))
      (by linarith)
    simp only [processSell, hamt, if_true, hmin, sub_self, le_refl, if_pos]
    constructor
    · simp only [matchedTotal, List.map_cons, List.sum_cons] at ih1 ⊢
      rw [ih1, htot]
    · exact ih2

/-- C2.  Unmatched-sell-drop policy.  First part: Scenario 2 (a single
sell with no prior buy) yields zero completed trades and the all-zero
summary.  Second part: whenever a sell's amount exceeds the total
remaining quantity of the buy queue, matching terminates normally
(the embedding is a total function, so no error), the emitted matches
account for exactly the available buy quantity — the unmatched
remainder produces no `CompletedTrade` — and the final queue is empty,
so no short position is carried. -/
theorem fifo_unmatched_sell_dropped :
    (matchTradesFifo scenario2Trades = []
      ∧ calculateSummary (matchTradesFifo scenario2Trades) = emptySummary)
    ∧ ∀ (s : String) (p ts amt : ℚ) (queue : List Lot),
        (∀ l ∈ queue, 0 ≤ l.amount) → lotTotal queue < amt →
        matchedTotal (processSell s p ts amt queue).1 = lotTotal queue
        ∧ (processSell s p ts amt queue).2 = [] := by
  constructor
  · have h : matchTradesFifo scenario2Trades = [] := by
      norm_num [matchTradesFifo, symbolKeys, dedupFirst, contributes, matchSymbol,
        matchSymbolFull, groupBuys, groupSells, sortTs, List.insertionSort,
        List.orderedInsert, tsLe, fifoWalk, processSell, sideLower, lowerStr_buy,
        lowerStr_sell, scenario2Trades, List.dedup, List.pwFilter, Option.getD]
      simp
    refine ⟨h, ?_⟩
    rw [h]
    simp [calculateSummary]
  · intro s p ts amt queue hnn hlt
    exact processSell_drains s p ts queue amt hnn hlt

/-- Closed witness for C2: a queue holding one lot of quantity 1 hit
by a sell of quantity 2 drains to the empty queue with total matched
quantity 1. -/
theorem fifo_unmatched_sell_dropped_witness :
    matchedTotal (processSell "BTC/USDT" 100 5 2 [⟨1, 50, 0, "b"⟩]).1
        = lotTotal [⟨1, 50, 0, "b"⟩]
    ∧ (processSell "BTC/USDT" 100 5 2 [⟨1, 50, 0, "b"⟩]).2 = [] :=
  fifo_unmatched_sell_dropped.2 "BTC/USDT" 100 5 2 [⟨1, 50, 0, "b"⟩]
    (by
      intro l hl
      rw [List.mem_singleton] at hl
      subst hl
      norm_num)
    (by norm_num [lotTotal])

/-! ### Malformed records -/

lemma filter_isSome_groupBuys (trades : List RawTrade) (s : String) :
    groupBuys (trades.filter (fun t => t.symbol.isSome)) s = groupBuys trades s := by
  unfold groupBuys
  rw [List.filter_filter]
  apply List.filter_congr
  intro t _
  by_cases h : t.symbol = some s ∧ sideLower t = "buy"
  · simp [h, h.1]
  · simp [h]

lemma filter_isSome_groupSells (trades : List RawTrade) (s : String) :
    groupSells (trades.filter (fun t => t.symbol.isSome)) s = groupSells trades s := by
  unfold groupSells
  rw [List.filter_filter]
  apply List.filter_congr
  intro t _
  by_cases h : t.symbol = some s ∧ sideLower t = "sell"
  · simp [h, h.1]
  · simp [h]

lemma filter_isSome_symbolKeys (trades : List RawTrade) :
    symbolKeys (trades.filter (fun t => t.symbol.isSome)) = symbolKeys trades := by
  unfold symbolKeys
  rw [List.filter_filter]
  congr 1
  apply congrArg
  apply List.filter_congr
  intro t _
  cases hs : t.symbol.isSome
  · simp [contributes, hs]
  · simp [contributes, hs]

/-- C8 (amended).  Records without a `'symbol'` key are skipped: the
matcher's output on any trade list equals its output with those
records removed, and matching of the remaining records completes
normally. -/
theorem missing_symbol_skipped (trades : List RawTrade) :
    matchTradesFifo (trades.filter (fun t => t.symbol.isSome))
      = matchTradesFifo trades := by
  have hms : ∀ s, matchSymbol (trades.filter (fun t => t.symbol.isSome)) s
      = matchSymbol trades s := by
    intro s
    unfold matchSymbol matchSymbolFull
    rw [filter_isSome_groupBuys, filter_isSome_groupSells]
  unfold matchTradesFifo
  rw [filter_isSome_symbolKeys]
  rw [funext hms]

/-- The C8 counterexample input: a zero-quantity buy (malformed by the
specification's `quantity > 0` requirement) followed by a well-formed
buy and a fully matched sell. -/
def c8Trades : List RawTrade :=
  [{ symbol := some "BTC/USDT", side := "buy", amount := 0, price := 50,
     timestamp := 0, id := "bad" },
   { symbol := some "BTC/USDT", side := "buy", amount := 1, price := 100,
     timestamp := 1, id := "good" },
   { symbol := some "BTC/USDT", side := "sell", amount := 1, price := 120,
     timestamp := 2, id := "s" }]

/-- C8 (counterexample).  The matcher does not skip a zero-quantity
buy: the record enters the queue and is matched into a spurious
zero-quantity `CompletedTrade`, so the output differs from the output
on the same list with malformed records (non-positive price or
quantity, missing symbol) removed. -/
theorem malformed_trade_skip_counterexample :
    matchTradesFifo c8Trades
      ≠ matchTradesFifo (c8Trades.filter
          (fun t => decide (0 < t.price) && decide (0 < t.amount) && t.symbol.isSome)) := by
  have h1 : matchTradesFifo c8Trades =
      [{ symbol := "BTC/USDT", buy_price := 50, sell_price := 120,
         amount := 0, buy_timestamp := 0, sell_timestamp := 2,
         pnl := 0, pnl_percentage := 140, is_winning := false },
       { symbol := "BTC/USDT", buy_price := 100, sell_price := 120,
         amount := 1, buy_timestamp := 1, sell_timestamp := 2,
         pnl := 20, pnl_percentage := 20, is_winning := true }] := by
    norm_num [matchTradesFifo, symbolKeys, dedupFirst, contributes, matchSymbol,
      matchSymbolFull, groupBuys, groupSells, sortTs, List.insertionSort,
      List.orderedInsert, tsLe, fifoWalk, processSell, sideLower, lowerStr_buy,
      lowerStr_sell, c8Trades, List.dedup, List.pwFilter, Option.getD]
    simp
  have h2 : matchTradesFifo (c8Trades.filter
      (fun t => decide (0 < t.price) && decide (0 < t.amount) && t.symbol.isSome)) =
      [{ symbol := "BTC/USDT", buy_price := 100, sell_price := 120,
         amount := 1, buy_timestamp := 1, sell_timestamp := 2,
         pnl := 20, pnl_percentage := 20, is_winning := true }] := by
    norm_num [matchTradesFifo, symbolKeys, dedupFirst, contributes, matchSymbol,
      matchSymbolFull, groupBuys, groupSells, sortTs, List.insertionSort,
      List.orderedInsert, tsLe, fifoWalk, processSell, sideLower, lowerStr_buy,
      lowerStr_sell, c8Trades, List.dedup, List.pwFilter, Option.getD,
      List.filter]
    simp
  rw [h1, h2]
  simp

/-! ### Temporal order of emitted trades -/

lemma processSell_emits (s : String) (p ts : ℚ) :
    ∀ (queue : List Lot) (amt : ℚ),
      ∀ ct ∈ (processSell s p ts amt queue).1,
        (∃ l ∈ queue, ct.buy_timestamp = l.timestamp)
        ∧ ct.sell_timestamp = ts ∧ ct.symbol = s := by
  intro queue
  induction queue with
  | nil =>
    intro amt ct hct
    simp [processSell] at hct
  | cons buy rest ih =>
    intro amt ct hct
    by_cases hamt : 0 < amt
    · by_cases hdone : buy.amount - min amt buy.amount ≤ 0
      · simp only [processSell, if_pos hamt, if_pos hdone, List.mem_cons] at hct
        rcases hct with hct | hct
        · subst hct
          exact ⟨⟨buy, List.mem_cons_self _ _, rfl⟩, rfl, rfl⟩
        · obtain ⟨⟨l, hl, hts⟩, hsell, hsym⟩ :=
            ih (amt - min amt buy.amount) ct hct
          exact ⟨⟨l, List.mem_cons_of_mem _ hl, hts⟩, hsell, hsym⟩
      · simp only [processSell, if_pos hamt, if_neg hdone, List.mem_singleton] at hct
        subst hct
        exact ⟨⟨buy, List.mem_cons_self _ _, rfl⟩, rfl, rfl⟩
    · simp [processSell, if_neg hamt] at hct

lemma processSell_queue_ts (s : String) (p ts : ℚ) :
    ∀ (queue : List Lot) (amt : ℚ),
      ∀ l' ∈ (processSell s p ts amt queue).2,
        ∃ l ∈ queue, l'.timestamp = l.timestamp := by
  intro queue
  induction queue with
  | nil =>
    intro amt l' hl'
    simp [processSell] at hl'
  | cons buy rest ih =>
    intro amt l' hl'
    by_cases hamt : 0 < amt
    · by_cases hdone : buy.amount - min amt buy.amount ≤ 0
      · simp only [processSell, if_pos hamt, if_pos hdone] at hl'
        obtain ⟨l, hl, hts⟩ := ih (amt - min amt buy.amount) l' hl'
        exact ⟨l, List.mem_cons_of_mem _ hl, hts⟩
      · simp only [processSell, if_pos hamt, if_neg hdone, List.mem_cons] at hl'
        rcases hl' with hl' | hl'
        · subst hl'
          exact ⟨buy, List.mem_cons_self _ _, rfl⟩
        · exact ⟨l', List.mem_cons_of_mem _ hl', rfl⟩
    · simp only [processSell, if_neg hamt, List.mem_cons] at hl'
      rcases hl' with hl' | hl'
      · subst hl'
        exact ⟨l', List.mem_cons_self _ _, rfl⟩
      · exact ⟨l', List.mem_cons_of_mem _ hl', rfl⟩

lemma fifoWalk_buyts_le (s : String) :
    ∀ (merged : List RawTrade) (queue : List Lot),
      List.Sorted tsLe merged →
      (∀ l ∈ queue, ∀ e ∈ merged, l.timestamp ≤ e.timestamp) →
      ∀ ct ∈ (fifoWalk s merged queue).1,
        ct.buy_timestamp ≤ ct.sell_timestamp := by
  intro merged
  induction merged with
  | nil =>
    intro queue _ _ ct hct
    simp [fifoWalk] at hct
  | cons t rest ih =>
    intro queue hsorted hq ct hct
    rw [List.sorted_cons] at hsorted
    obtain ⟨hhead, hrest⟩ := hsorted
    by_cases hbuy : t.side = "buy"
    · rw [show fifoWalk s (t :: rest) queue
          = fifoWalk s rest
              (queue ++ [{ amount := t.amount, price := t.price,
                           timestamp := t.timestamp, id := t.id }]) by
        simp [fifoWalk, hbuy]] at hct
      refine ih _ hrest ?_ ct hct
      intro l hl e he
      rcases List.mem_append.mp hl with hl | hl
      · exact hq l hl e (List.mem_cons_of_mem _ he)
      · rw [List.mem_singleton] at hl
        subst hl
        exact hhead e he
    · by_cases hsell : t.side = "sell" ∧ queue ≠ []
      · rw [show fifoWalk s (t :: rest) queue
            = ((processSell s t.price t.timestamp t.amount queue).1
                ++ (fifoWalk s rest (processSell s t.price t.timestamp t.amount queue).2).1,
               (fifoWalk s rest (processSell s t.price t.timestamp t.amount queue).2).2) by
          simp [fifoWalk, hbuy, hsell]] at hct

        rcases List.mem_append.mp hct with hct | hct
        · obtain ⟨⟨l, hl, hts⟩, hsellts, _⟩ :=
            processSell_emits s t.price t.timestamp queue t.amount ct hct
          rw [hts, hsellts]
          exact hq l hl t (List.mem_cons_self _ _)
        · refine ih _ hrest ?_ ct hct
          intro l' hl' e he
          obtain ⟨l, hl, hts⟩ :=
            processSell_queue_ts s t.price t.timestamp queue t.amount l' hl'
          rw [hts]
          exact hq l hl e (List.mem_cons_of_mem _ he)
      · rw [show fifoWalk s (t :: rest) queue = fifoWalk s rest queue by
          simp [fifoWalk, hbuy, hsell]] at hct
        refine ih _ hrest ?_ ct hct
        intro l hl e he
        exact hq l hl e (List.mem_cons_of_mem _ he)

lemma sortTs_sorted (l : List RawTrade) : List.Sorted tsLe (sortTs l) :=
  List.sorted_insertionSort tsLe l

/-- C10.  Implicit temporal-order invariant: every completed trade the
FIFO matcher emits satisfies `buy_timestamp ≤ sell_timestamp`, since a
sell is only matched against lots that entered the queue no later in
the timestamp-sorted merged sequence. -/
theorem completed_trade_temporal_order (trades : List RawTrade)
    (ct : CompletedTrade) (hct : ct ∈ matchTradesFifo trades) :
    ct.buy_timestamp ≤ ct.sell_timestamp := by
  rw [matchTradesFifo, List.mem_flatMap] at hct
  obtain ⟨s, _, hct⟩ := hct
  exact fifoWalk_buyts_le s _ [] (sortTs_sorted _) (by simp) ct hct

/-- The C10 witness input: one buy at t = 0 matched by one sell at t = 1. -/
def c10Trades : List RawTrade :=
  [{ symbol := some "ETH/USDT", side := "buy", amount := 1, price := 100,
     timestamp := 0, id := "b" },
   { symbol := some "ETH/USDT", side := "sell", amount := 1, price := 120,
     timestamp := 1, id := "s" }]

/-- Closed witness for C10 at a concrete input. -/
theorem completed_trade_temporal_order_witness :
    ({ symbol := "ETH/USDT", buy_price := 100, sell_price := 120,
       amount := 1, buy_timestamp := 0, sell_timestamp := 1,
       pnl := 20, pnl_percentage := 20, is_winning := true } : CompletedTrade).buy_timestamp
      ≤ ({ symbol := "ETH/USDT", buy_price := 100, sell_price := 120,
           amount := 1, buy_timestamp := 0, sell_timestamp := 1,
           pnl := 20, pnl_percentage := 20, is_winning := true } : CompletedTrade).sell_timestamp :=
  completed_trade_temporal_order c10Trades _
    (by
      have h : matchTradesFifo c10Trades =
          [{ symbol := "ETH/USDT", buy_price := 100, sell_price := 120,
             amount := 1, buy_timestamp := 0, sell_timestamp := 1,
             pnl := 20, pnl_percentage := 20, is_winning := true }] := by
        norm_num [matchTradesFifo, symbolKeys, dedupFirst, contributes, matchSymbol,
          matchSymbolFull, groupBuys, groupSells, sortTs, List.insertionSort,
          List.orderedInsert, tsLe, fifoWalk, processSell, sideLower, lowerStr_buy,
          lowerStr_sell, c10Trades, List.dedup, List.pwFilter, Option.getD]
        simp
      rw [h]
      exact List.mem_singleton_self _)

/-! ### FIFO conservation -/

lemma processSell_conservation (s : String) (p ts : ℚ) :
    ∀ (queue : List Lot) (amt : ℚ),
      matchedTotal (processSell s p ts amt queue).1
        + lotTotal (processSell s p ts amt queue).2 = lotTotal queue := by
  intro queue
  induction queue with
  | nil =>
    intro amt
    simp [processSell, matchedTotal, lotTotal]
  | cons buy rest ih =>
    intro amt
    by_cases hamt : 0 < amt
    · by_cases hdone : buy.amount - min amt buy.amount ≤ 0
      · have hm : min amt buy.amount = buy.amount :=
          le_antisymm (min_le_right _ _) (by linarith)
        simp only [processSell, if_pos hamt, if_pos hdone, matchedTotal,
          List.map_cons, List.sum_cons]
        have hrec := ih (amt - min amt buy.amount)
        simp only [matchedTotal] at hrec
        have hl : lotTotal (buy :: rest) = buy.amount + lotTotal rest := by
          simp [lotTotal]
        rw [hl]
        linarith [hrec, hm]
      · simp only [processSell, if_pos hamt, if_neg hdone, matchedTotal,
          lotTotal, List.map_cons, List.sum_cons, List.map_nil,
          List.sum_nil]
        ring
    · simp [processSell, if_neg hamt, matchedTotal]

lemma processSell_matched_le (s : String) (p ts : ℚ) :
    ∀ (queue : List Lot) (amt : ℚ), 0 ≤ amt →
      matchedTotal (processSell s p ts amt queue).1 ≤ amt := by
  intro queue
  induction queue with
  | nil =>
    intro amt h
    simpa [processSell, matchedTotal] using h
  | cons buy rest ih =>
    intro amt h
    by_cases hamt : 0 < amt
    · by_cases hdone : buy.amount - min amt buy.amount ≤ 0
      · simp only [processSell, if_pos hamt, if_pos hdone, matchedTotal,
          List.map_cons, List.sum_cons]
        have hrec := ih (amt - min amt buy.amount)
          (by simp [min_le_left])
        simp only [matchedTotal] at hrec
        have : min amt buy.amount ≤ amt := min_le_left _ _
        linarith
      · simp only [processSell, if_pos hamt, if_neg hdone, matchedTotal,
          List.map_cons, List.sum_cons, List.map_nil, List.sum_nil]
        have : min amt buy.amount ≤ amt := min_le_left _ _
        linarith
    · simpa [processSell, if_neg hamt, matchedTotal] using h

lemma processSell_queue_pos (s : String) (p ts : ℚ) :
    ∀ (queue : List Lot) (amt : ℚ), (∀ l ∈ queue, 0 < l.amount) →
      ∀ l ∈ (processSell s p ts amt queue).2, 0 < l.amount := by
  intro queue
  induction queue with
  | nil =>
    intro amt _ l hl
    simp [processSell] at hl
  | cons buy rest ih =>
    intro amt hq l hl
    by_cases hamt : 0 < amt
    · by_cases hdone : buy.amount - min amt buy.amount ≤ 0
      · simp only [processSell, if_pos hamt, if_pos hdone] at hl
        exact ih (amt - min amt buy.amount)
          (fun x hx => hq x (List.mem_cons_of_mem _ hx)) l hl
      · simp only [processSell, if_pos hamt, if_neg hdone, List.mem_cons] at hl
        rcases hl with hl | hl
        · subst hl
          simpa using lt_of_not_le hdone
        · exact hq l (List.mem_cons_of_mem _ hl)
    · simp only [processSell, if_neg hamt, List.mem_cons] at hl
      rcases hl with hl | hl
      · subst hl
        exact hq l (List.mem_cons_self _ _)
      · exact hq l (List.mem_cons_of_mem _ hl)

/-- Sum of amounts over the exact-`'buy'`-side records of a list. -/
def buySideSum (l : List RawTrade) : ℚ :=
  ((l.filter (fun t => decide (t.side = "buy"))).map (fun t => t.amount)).sum

/-- Sum of amounts over the exact-`'sell'`-side records of a list. -/
def sellSideSum (l : List RawTrade) : ℚ :=
  ((l.filter (fun t => decide (t.side = "sell"))).map (fun t => t.amount)).sum

lemma fifoWalk_account (s : String) :
    ∀ (merged : List RawTrade) (queue : List Lot),
      matchedTotal (fifoWalk s merged queue).1
        + lotTotal (fifoWalk s merged queue).2
        = lotTotal queue + buySideSum merged := by
  intro merged
  induction merged with
  | nil =>
    intro queue
    simp [fifoWalk, matchedTotal, buySideSum, lotTotal]
  | cons t rest ih =>
    intro queue
    by_cases hbuy : t.side = "buy"
    · rw [show fifoWalk s (t :: rest) queue
          = fifoWalk s rest
              (queue ++ [{ amount := t.amount, price := t.price,
                           timestamp := t.timestamp, id := t.id }]) by
        simp [fifoWalk, hbuy]]
      rw [ih]
      simp only [buySideSum, List.filter_cons, hbuy]
      simp [lotTotal, buySideSum, add_comm, add_assoc, add_left_comm]
    · by_cases hsell : t.side = "sell" ∧ queue ≠ []
      · rw [show fifoWalk s (t :: rest) queue
            = ((processSell s t.price t.timestamp t.amount queue).1
                ++ (fifoWalk s rest (processSell s t.price t.timestamp t.amount queue).2).1,
               (fifoWalk s rest (processSell s t.price t.timestamp t.amount queue).2).2) by
          simp [fifoWalk, hbuy, hsell]]
        have hps := processSell_conservation s t.price t.timestamp queue t.amount
        have hih := ih (processSell s t.price t.timestamp t.amount queue).2
        simp only [matchedTotal, List.map_append, List.sum_append] at hih ⊢
        simp only [matchedTotal] at hps
        have hfilter : buySideSum (t :: rest) = buySideSum rest := by
          simp [buySideSum, List.filter_cons, hbuy]
        rw [hfilter]
        linarith
      · rw [show fifoWalk s (t :: rest) queue = fifoWalk s rest queue by
          simp [fifoWalk, hbuy, hsell]]
        rw [ih]
        simp [buySideSum, List.filter_cons, hbuy]

lemma fifoWalk_matched_le_sells (s : String) :
    ∀ (merged : List RawTrade) (queue : List Lot),
      (∀ t ∈ merged, 0 ≤ t.amount) →
      matchedTotal (fifoWalk s merged queue).1 ≤ sellSideSum merged := by
  intro merged
  induction merged with
  | nil =>
    intro queue _
    simp [fifoWalk, matchedTotal, sellSideSum]
  | cons t rest ih =>
    intro queue hnn
    have hrest : ∀ x ∈ rest, 0 ≤ x.amount :=
      fun x hx => hnn x (List.mem_cons_of_mem _ hx)
    by_cases hbuy : t.side = "buy"
    · rw [show fifoWalk s (t :: rest) queue
          = fifoWalk s rest
              (queue ++ [{ amount := t.amount, price := t.price,
                           timestamp := t.timestamp, id := t.id }]) by
        simp [fifoWalk, hbuy]]
      have : sellSideSum (t :: rest) = sellSideSum rest := by
        simp [sellSideSum, List.filter_cons, hbuy]
      rw [this]
      exact ih _ hrest
    · by_cases hsell : t.side = "sell" ∧ queue ≠ []
      · rw [show fifoWalk s (t :: rest) queue
            = ((processSell s t.price t.timestamp t.amount queue).1
                ++ (fifoWalk s rest (processSell s t.price t.timestamp t.amount queue).2).1,
               (fifoWalk s rest (processSell s t.price t.timestamp t.amount queue).2).2) by
          simp [fifoWalk, hbuy, hsell]]
        have hle := processSell_matched_le s t.price t.timestamp queue t.amount
          (hnn t (List.mem_cons_self _ _))
        have hih := ih (processSell s t.price t.timestamp t.amount queue).2 hrest
        have hfilter : sellSideSum (t :: rest) = t.amount + sellSideSum rest := by
          simp [sellSideSum, List.filter_cons, hsell.1]
        rw [hfilter]
        simp only [matchedTotal, List.map_append, List.sum_append] at hih hle ⊢
        linarith
      · rw [show fifoWalk s (t :: rest) queue = fifoWalk s rest queue by
          simp [fifoWalk, hbuy, hsell]]
        by_cases hts : t.side = "sell"
        · have hfilter : sellSideSum (t :: rest) = t.amount + sellSideSum rest := by
            simp [sellSideSum, List.filter_cons, hts]
          rw [hfilter]
          have := ih queue hrest
          have ht0 : 0 ≤ t.amount := hnn t (List.mem_cons_self _ _)
          linarith
        · have hfilter : sellSideSum (t :: rest) = sellSideSum rest := by
            simp [sellSideSum, List.filter_cons, hts]
          rw [hfilter]
          exact ih queue hrest

lemma fifoWalk_queue_pos (s : String) :
    ∀ (merged : List RawTrade) (queue : List Lot),
      (∀ t ∈ merged, 0 < t.amount) → (∀ l ∈ queue, 0 < l.amount) →
      ∀ l ∈ (fifoWalk s merged queue).2, 0 < l.amount := by
  intro merged
  induction merged with
  | nil =>
    intro queue _ hq l hl
    simp only [fifoWalk] at hl
    exact hq l hl
  | cons t rest ih =>
    intro queue hm hq l hl
    have hrest : ∀ x ∈ rest, 0 < x.amount :=
      fun x hx => hm x (List.mem_cons_of_mem _ hx)
    by_cases hbuy : t.side = "buy"
    · rw [show fifoWalk s (t :: rest) queue
          = fifoWalk s rest
              (queue ++ [{ amount := t.amount, price := t.price,
                           timestamp := t.timestamp, id := t.id }]) by
        simp [fifoWalk, hbuy]] at hl
      refine ih _ hrest ?_ l hl
      intro x hx
      rcases List.mem_append.mp hx with hx | hx
      · exact hq x hx
      · rw [List.mem_singleton] at hx
        subst hx
        exact hm t (List.mem_cons_self _ _)
    · by_cases hsell : t.side = "sell" ∧ queue ≠ []
      · rw [show fifoWalk s (t :: rest) queue
            = ((processSell s t.price t.timestamp t.amount queue).1
                ++ (fifoWalk s rest (processSell s t.price t.timestamp t.amount queue).2).1,
               (fifoWalk s rest (processSell s t.price t.timestamp t.amount queue).2).2) by
          simp [fifoWalk, hbuy, hsell]] at hl
        exact ih _ hrest
          (processSell_queue_pos s t.price t.timestamp queue t.amount hq) l hl
      · rw [show fifoWalk s (t :: rest) queue = fifoWalk s rest queue by
          simp [fifoWalk, hbuy, hsell]] at hl
        exact ih queue hrest hq l hl

lemma fifoWalk_symbol (s : String) :
    ∀ (merged : List RawTrade) (queue : List Lot),
      ∀ ct ∈ (fifoWalk s merged queue).1, ct.symbol = s := by
  intro merged
  induction merged with
  | nil =>
    intro queue ct hct
    simp [fifoWalk] at hct
  | cons t rest ih =>
    intro queue ct hct
    by_cases hbuy : t.side = "buy"
    · rw [show fifoWalk s (t :: rest) queue
          = fifoWalk s rest
              (queue ++ [{ amount := t.amount, price := t.price,
                           timestamp := t.timestamp, id := t.id }]) by
        simp [fifoWalk, hbuy]] at hct
      exact ih _ ct hct
    · by_cases hsell : t.side = "sell" ∧ queue ≠ []
      · rw [show fifoWalk s (t :: rest) queue
            = ((processSell s t.price t.timestamp t.amount queue).1
                ++ (fifoWalk s rest (processSell s t.price t.timestamp t.amount queue).2).1,
               (fifoWalk s rest (processSell s t.price t.timestamp t.amount queue).2).2) by
          simp [fifoWalk, hbuy, hsell]] at hct
        rcases List.mem_append.mp hct with hct | hct
        · exact (processSell_emits s t.price t.timestamp queue t.amount ct hct).2.2
        · exact ih _ ct hct
      · rw [show fifoWalk s (t :: rest) queue = fifoWalk s rest queue by
          simp [fifoWalk, hbuy, hsell]] at hct
        exact ih queue ct hct

lemma matchSymbol_symbol (trades : List RawTrade) (k : String) :
    ∀ ct ∈ matchSymbol trades k, ct.symbol = k := by
  intro ct hct
  exact fifoWalk_symbol k _ [] ct hct

lemma symbolKeys_nodup (trades : List RawTrade) : (symbolKeys trades).Nodup := by
  unfold symbolKeys dedupFirst
  exact List.nodup_reverse.mpr (List.nodup_dedup _)

lemma filter_flatMap_symbol (keys : List String)
    (f : String → List CompletedTrade) (s : String)
    (hnd : keys.Nodup) (hf : ∀ k ∈ keys, ∀ ct ∈ f k, ct.symbol = k) :
    (keys.flatMap f).filter (fun ct => decide (ct.symbol = s))
      = if s ∈ keys then f s else [] := by
  induction keys with
  | nil => simp
  | cons k ks ih =>
    rw [List.flatMap_cons, List.filter_append]
    obtain ⟨hk, hks⟩ := List.nodup_cons.mp hnd
    have ihs := ih hks (fun k' hk' => hf k' (List.mem_cons_of_mem _ hk'))
    by_cases hkeq : k = s
    · subst hkeq
      have h1 : (f k).filter (fun ct => decide (ct.symbol = k)) = f k := by
        rw [List.filter_eq_self]
        intro ct hct
        simp [hf k (List.mem_cons_self _ _) ct hct]
      rw [h1, ihs, if_neg hk]
      simp
    · have h1 : (f k).filter (fun ct => decide (ct.symbol = s)) = [] := by
        rw [List.filter_eq_nil_iff]
        intro ct hct
        rw [hf k (List.mem_cons_self _ _) ct hct]
        simp [hkeq]
      rw [h1, ihs, List.nil_append]
      by_cases hmem : s ∈ ks
      · rw [if_pos hmem, if_pos (List.mem_cons_of_mem _ hmem)]
      · have hno : s ∉ k :: ks := by
          intro hcon
          rcases List.mem_cons.mp hcon with hcon | hcon
          · exact hkeq hcon.symm
          · exact hmem hcon
        rw [if_neg hmem, if_neg hno]

/-- Total matched quantity emitted for a symbol. -/
def matchedFor (trades : List RawTrade) (s : String) : ℚ :=
  matchedTotal ((matchTradesFifo trades).filter (fun ct => decide (ct.symbol = s)))

/-- Total buy quantity of a symbol (records grouped into `'buys'`). -/
def buyTotal (trades : List RawTrade) (s : String) : ℚ :=
  ((groupBuys trades s).map (fun t => t.amount)).sum

/-- Total sell quantity of a symbol (records grouped into `'sells'`). -/
def sellTotal (trades : List RawTrade) (s : String) : ℚ :=
  ((groupSells trades s).map (fun t => t.amount)).sum

lemma matchedFor_eq (trades : List RawTrade) (s : String) :
    matchedFor trades s
      = if s ∈ symbolKeys trades then matchedTotal (matchSymbol trades s) else 0 := by
  unfold matchedFor
  rw [matchTradesFifo, filter_flatMap_symbol _ _ s (symbolKeys_nodup trades)
    (fun k _ => matchSymbol_symbol trades k)]
  by_cases h : s ∈ symbolKeys trades
  · rw [if_pos h, if_pos h]
  · rw [if_neg h, if_neg h]
    simp [matchedTotal]

lemma not_mem_symbolKeys_groups (trades : List RawTrade) (s : String)
    (hs : s ∉ symbolKeys trades) :
    groupBuys trades s = [] ∧ groupSells trades s = [] := by
  have hmem : ∀ t ∈ trades, t.symbol = some s →
      (sideLower t = "buy" ∨ sideLower t = "sell") → s ∈ symbolKeys trades := by
    intro t ht hsym hside
    unfold symbolKeys dedupFirst
    rw [List.mem_reverse, List.mem_dedup, List.mem_reverse]
    rw [List.mem_map]
    refine ⟨t, ?_, ?_⟩
    · rw [List.mem_filter]
      refine ⟨ht, ?_⟩
      unfold contributes
      rw [hsym]
      rcases hside with h | h <;> simp [h]
    · rw [hsym]
      rfl
  constructor
  · unfold groupBuys
    rw [List.filter_eq_nil_iff]
    intro t ht hcond
    rw [decide_eq_true_eq] at hcond
    exact hs (hmem t ht hcond.1 (Or.inl hcond.2))
  · unfold groupSells
    rw [List.filter_eq_nil_iff]
    intro t ht hcond
    rw [decide_eq_true_eq] at hcond
    exact hs (hmem t ht hcond.1 (Or.inr hcond.2))

lemma mem_sortTs {t : RawTrade} {l : List RawTrade} : t ∈ sortTs l ↔ t ∈ l :=
  (List.perm_insertionSort tsLe l).mem_iff

lemma sortTs_perm (l : List RawTrade) : (sortTs l).Perm l :=
  List.perm_insertionSort tsLe l

lemma buySideSum_perm {l₁ l₂ : List RawTrade} (h : l₁.Perm l₂) :
    buySideSum l₁ = buySideSum l₂ :=
  ((h.filter _).map _).sum_eq

lemma sellSideSum_perm {l₁ l₂ : List RawTrade} (h : l₁.Perm l₂) :
    sellSideSum l₁ = sellSideSum l₂ :=
  ((h.filter _).map _).sum_eq

/-- C4.  FIFO conservation: for RawTrade lists that are well formed in
the sense of the data model (positive quantity, side `'buy'` or
`'sell'`), the matched quantity emitted for a symbol is at most the
symbol's total buy quantity and at most its total sell quantity; both
inequalities become equalities when buys and sells are balanced and
fully matchable (the buy queue finishes empty). -/
theorem fifo_conservation (trades : List RawTrade)
    (hamt : ∀ t ∈ trades, 0 < t.amount)
    (hside : ∀ t ∈ trades, t.side = "buy" ∨ t.side = "sell") (s : String) :
    matchedFor trades s ≤ buyTotal trades s
    ∧ matchedFor trades s ≤ sellTotal trades s
    ∧ (buyTotal trades s = sellTotal trades s ∧ (matchSymbolFull trades s).2 = [] →
        matchedFor trades s = buyTotal trades s
        ∧ matchedFor trades s = sellTotal trades s) := by
  by_cases hs : s ∈ symbolKeys trades
  · have hfor : matchedFor trades s = matchedTotal (matchSymbol trades s) := by
      rw [matchedFor_eq, if_pos hs]
    have hBmem : ∀ t ∈ groupBuys trades s, t ∈ trades ∧ sideLower t = "buy" := by
      intro t ht
      unfold groupBuys at ht
      rw [List.mem_filter, decide_eq_true_eq] at ht
      exact ⟨ht.1, ht.2.2⟩
    have hSmem : ∀ t ∈ groupSells trades s, t ∈ trades ∧ sideLower t = "sell" := by
      intro t ht
      unfold groupSells at ht
      rw [List.mem_filter, decide_eq_true_eq] at ht
      exact ⟨ht.1, ht.2.2⟩
    have hBside : ∀ t ∈ groupBuys trades s, t.side = "buy" := by
      intro t ht
      rcases hside t (hBmem t ht).1 with h | h
      · exact h
      · exfalso
        have := (hBmem t ht).2
        rw [sideLower, h, lowerStr_sell] at this
        exact absurd this (by decide)
    have hSside : ∀ t ∈ groupSells trades s, t.side = "sell" := by
      intro t ht
      rcases hside t (hSmem t ht).1 with h | h
      · exfalso
        have := (hSmem t ht).2
        rw [sideLower, h, lowerStr_buy] at this
        exact absurd this (by decide)
      · exact h
    have hperm : (sortTs (sortTs (groupBuys trades s) ++ sortTs (groupSells trades s))).Perm
        (groupBuys trades s ++ groupSells trades s) :=
      (sortTs_perm _).trans
        ((sortTs_perm (groupBuys trades s)).append (sortTs_perm (groupSells trades s)))
    have hmergedmem : ∀ t ∈ sortTs (sortTs (groupBuys trades s) ++ sortTs (groupSells trades s)),
        t ∈ trades := by
      intro t ht
      rw [hperm.mem_iff, List.mem_append] at ht
      rcases ht with ht | ht
      · exact (hBmem t ht).1
      · exact (hSmem t ht).1
    have hbuySum : buySideSum (sortTs (sortTs (groupBuys trades s) ++ sortTs (groupSells trades s)))
        = buyTotal trades s := by
      rw [buySideSum_perm hperm]
      unfold buySideSum buyTotal
      rw [List.filter_append]
      have h1 : (groupBuys trades s).filter (fun t => decide (t.side = "buy"))
          = groupBuys trades s := by
        rw [List.filter_eq_self]
        intro t ht
        simp [hBside t ht]
      have h2 : (groupSells trades s).filter (fun t => decide (t.side = "buy")) = [] := by
        rw [List.filter_eq_nil_iff]
        intro t ht
        simp [hSside t ht]
      rw [h1, h2]
      simp
    have hsellSum : sellSideSum (sortTs (sortTs (groupBuys trades s) ++ sortTs (groupSells trades s)))
        = sellTotal trades s := by
      rw [sellSideSum_perm hperm]
      unfold sellSideSum sellTotal
      rw [List.filter_append]
      have h1 : (groupBuys trades s).filter (fun t => decide (t.side = "sell")) = [] := by
        rw [List.filter_eq_nil_iff]
        intro t ht
        simp [hBside t ht]
      have h2 : (groupSells trades s).filter (fun t => decide (t.side = "sell"))
          = groupSells trades s := by
        rw [List.filter_eq_self]
        intro t ht
        simp [hSside t ht]
      rw [h1, h2]
      simp
    have hfull : matchSymbolFull trades s
        = fifoWalk s (sortTs (sortTs (groupBuys trades s) ++ sortTs (groupSells trades s))) [] := by
      simp [matchSymbolFull]
    have haccount := fifoWalk_account s
      (sortTs (sortTs (groupBuys trades s) ++ sortTs (groupSells trades s))) []
    have hqueuepos := fifoWalk_queue_pos s
      (sortTs (sortTs (groupBuys trades s) ++ sortTs (groupSells trades s))) []
      (fun t ht => hamt t (hmergedmem t ht)) (by simp)
    have hlotnn : 0 ≤ lotTotal (matchSymbolFull trades s).2 := by
      rw [hfull]
      exact lotTotal_nonneg (fun l hl => le_of_lt (hqueuepos l hl))
    have hsellle := fifoWalk_matched_le_sells s
      (sortTs (sortTs (groupBuys trades s) ++ sortTs (groupSells trades s))) []
      (fun t ht => le_of_lt (hamt t (hmergedmem t ht)))
    have hmain : matchedTotal (matchSymbol trades s)
        + lotTotal (matchSymbolFull trades s).2 = buyTotal trades s := by
      rw [matchSymbol, hfull]
      rw [← hbuySum]
      simpa [lotTotal] using haccount
    have hsell2 : matchedTotal (matchSymbol trades s) ≤ sellTotal trades s := by
      rw [matchSymbol, hfull, ← hsellSum]
      exact hsellle
    refine ⟨?_, ?_, ?_⟩
    · rw [hfor]
      linarith
    · rw [hfor]
      exact hsell2
    · rintro ⟨hbal, hempty⟩
      have : lotTotal (matchSymbolFull trades s).2 = 0 := by
        rw [hempty]
        simp [lotTotal]
      constructor
      · rw [hfor]
        linarith
      · rw [hfor, ← hbal]
        linarith
  · obtain ⟨hB, hS⟩ := not_mem_symbolKeys_groups trades s hs
    have h0 : matchedFor trades s = 0 := by
      rw [matchedFor_eq, if_neg hs]
    have hbt : buyTotal trades s = 0 := by
      unfold buyTotal
      rw [hB]
      simp
    have hst : sellTotal trades s = 0 := by
      unfold sellTotal
      rw [hS]
      simp
    rw [h0, hbt, hst]
    exact ⟨le_refl 0, le_refl 0, fun _ => ⟨rfl, rfl⟩⟩

/-- Closed witness for C4 at the scenario-1 input and its symbol. -/
theorem fifo_conservation_witness :
    matchedFor scenario1Trades "BTC/USDT" ≤ buyTotal scenario1Trades "BTC/USDT"
    ∧ matchedFor scenario1Trades "BTC/USDT" ≤ sellTotal scenario1Trades "BTC/USDT"
    ∧ (buyTotal scenario1Trades "BTC/USDT" = sellTotal scenario1Trades "BTC/USDT"
        ∧ (matchSymbolFull scenario1Trades "BTC/USDT").2 = [] →
        matchedFor scenario1Trades "BTC/USDT" = buyTotal scenario1Trades "BTC/USDT"
        ∧ matchedFor scenario1Trades "BTC/USDT" = sellTotal scenario1Trades "BTC/USDT") :=
  fifo_conservation scenario1Trades
    (by
      intro t ht
      simp only [scenario1Trades, List.mem_cons, List.mem_singleton] at ht
      rcases ht with rfl | rfl | rfl | h
      · norm_num
      · norm_num
      · norm_num
      · simp at h)
    (by
      intro t ht
      simp only [scenario1Trades, List.mem_cons, List.mem_singleton] at ht
      rcases ht with rfl | rfl | rfl | h
      · left; rfl
      · right; rfl
      · right; rfl
      · simp at h)
    "BTC/USDT"

/-! ### Input-order independence -/

lemma eq_of_sorted_perm_tsNe :
    ∀ (l₁ l₂ : List RawTrade), l₁.Perm l₂ →
      List.Sorted tsLe l₁ → List.Sorted tsLe l₂ →
      l₁.Pairwise (fun a b => a.timestamp ≠ b.timestamp) → l₁ = l₂ := by
  intro l₁
  induction l₁ with
  | nil =>
    intro l₂ hp _ _ _
    exact (hp.symm.eq_nil).symm
  | cons a t₁ ih =>
    intro l₂ hp hs₁ hs₂ hpw
    cases l₂ with
    | nil => simpa using hp.eq_nil
    | cons b t₂ =>
      have hab : a = b := by
        by_contra hne
        have ha2 : a ∈ b :: t₂ := hp.mem_iff.mp (List.mem_cons_self _ _)
        have hb1 : b ∈ a :: t₁ := hp.mem_iff.mpr (List.mem_cons_self _ _)
        have ha : a ∈ t₂ := by
          rcases List.mem_cons.mp ha2 with h | h
          · exact absurd h hne
          · exact h
        have hb : b ∈ t₁ := by
          rcases List.mem_cons.mp hb1 with h | h
          · exact absurd h.symm hne
          · exact h
        have h1 : tsLe a b := (List.sorted_cons.mp hs₁).1 b hb
        have h2 : tsLe b a := (List.sorted_cons.mp hs₂).1 a ha
        exact (List.pairwise_cons.mp hpw).1 b hb (le_antisymm h1 h2)
      subst hab
      have hp' : t₁.Perm t₂ := hp.cons_inv
      rw [ih t₂ hp' (List.sorted_cons.mp hs₁).2 (List.sorted_cons.mp hs₂).2
        (List.pairwise_cons.mp hpw).2]

lemma sortTs_eq_of_perm {la lb : List RawTrade} (h : la.Perm lb)
    (hpw : la.Pairwise (fun a b => a.timestamp ≠ b.timestamp)) :
    sortTs la = sortTs lb := by
  refine eq_of_sorted_perm_tsNe _ _
    ((sortTs_perm la).trans (h.trans (sortTs_perm lb).symm))
    (sortTs_sorted la) (sortTs_sorted lb) ?_
  exact ((sortTs_perm la).pairwise_iff (fun hab heq => hab heq.symm)).mpr hpw

lemma mem_symbolKeys_iff (trades : List RawTrade) (s : String) :
    s ∈ symbolKeys trades
      ↔ ∃ t, t ∈ trades ∧ contributes t = true ∧ t.symbol.getD "" = s := by
  unfold symbolKeys dedupFirst
  rw [List.mem_reverse, List.mem_dedup, List.mem_reverse, List.mem_map]
  constructor
  · rintro ⟨t, ht, hts⟩
    rw [List.mem_filter] at ht
    exact ⟨t, ht.1, ht.2, hts⟩
  · rintro ⟨t, ht, hc, hts⟩
    exact ⟨t, List.mem_filter.mpr ⟨ht, hc⟩, hts⟩

/-- C5 (amended).  Input-order independence with distinct timestamps:
if two RawTrade lists are permutations of each other and, within each
(symbol, lower-cased side) class, no two records of the list share a
timestamp, then for every symbol the completed trades emitted for that
symbol are identical.  (Timestamp ties within a class, and the
cross-symbol interleaving of the combined output list, are genuinely
order-dependent; see the counterexample.) -/
theorem fifo_input_order_independent_distinct_ts (l₁ l₂ : List RawTrade)
    (hperm : l₁.Perm l₂)
    (hts : l₁.Pairwise (fun t u =>
      t.symbol = u.symbol → sideLower t = sideLower u →
        t.timestamp ≠ u.timestamp))
    (s : String) :
    (matchTradesFifo l₁).filter (fun ct => decide (ct.symbol = s))
      = (matchTradesFifo l₂).filter (fun ct => decide (ct.symbol = s)) := by
  have hgroup : ∀ s', (groupBuys l₁ s').Pairwise
      (fun a b : RawTrade => a.timestamp ≠ b.timestamp) := by
    intro s'
    have hsub : (groupBuys l₁ s').Pairwise (fun t u =>
        t.symbol = u.symbol → sideLower t = sideLower u →
          t.timestamp ≠ u.timestamp) :=
      hts.sublist (List.filter_sublist _)
    refine hsub.imp_of_mem ?_
    intro a b ha hb h
    unfold groupBuys at ha hb
    rw [List.mem_filter, decide_eq_true_eq] at ha hb
    exact h (ha.2.1.trans hb.2.1.symm) (ha.2.2.trans hb.2.2.symm)
  have hgroupS : ∀ s', (groupSells l₁ s').Pairwise
      (fun a b : RawTrade => a.timestamp ≠ b.timestamp) := by
    intro s'
    have hsub : (groupSells l₁ s').Pairwise (fun t u =>
        t.symbol = u.symbol → sideLower t = sideLower u →
          t.timestamp ≠ u.timestamp) :=
      hts.sublist (List.filter_sublist _)
    refine hsub.imp_of_mem ?_
    intro a b ha hb h
    unfold groupSells at ha hb
    rw [List.mem_filter, decide_eq_true_eq] at ha hb
    exact h (ha.2.1.trans hb.2.1.symm) (ha.2.2.trans hb.2.2.symm)
  have hgb : ∀ s', sortTs (groupBuys l₁ s') = sortTs (groupBuys l₂ s') := by
    intro s'
    exact sortTs_eq_of_perm (hperm.filter _) (hgroup s')
  have hgs : ∀ s', sortTs (groupSells l₁ s') = sortTs (groupSells l₂ s') := by
    intro s'
    exact sortTs_eq_of_perm (hperm.filter _) (hgroupS s')
  have hms : ∀ s', matchSymbol l₁ s' = matchSymbol l₂ s' := by
    intro s'
    unfold matchSymbol matchSymbolFull
    rw [hgb, hgs]
  have hkeys : s ∈ symbolKeys l₁ ↔ s ∈ symbolKeys l₂ := by
    rw [mem_symbolKeys_iff, mem_symbolKeys_iff]
    constructor
    · rintro ⟨t, ht, h1, h2⟩
      exact ⟨t, hperm.mem_iff.mp ht, h1, h2⟩
    · rintro ⟨t, ht, h1, h2⟩
      exact ⟨t, hperm.mem_iff.mpr ht, h1, h2⟩
  rw [matchTradesFifo, matchTradesFifo,
    filter_flatMap_symbol _ _ s (symbolKeys_nodup l₁)
      (fun k _ => matchSymbol_symbol l₁ k),
    filter_flatMap_symbol _ _ s (symbolKeys_nodup l₂)
      (fun k _ => matchSymbol_symbol l₂ k)]
  by_cases hmem : s ∈ symbolKeys l₁
  · rw [if_pos hmem, if_pos (hkeys.mp hmem), hms]
  · rw [if_neg hmem, if_neg (fun h => hmem (hkeys.mpr h))]

/-- The C5 counterexample inputs: two buys sharing one timestamp,
permuted, followed by one sell. -/
def c5TradesA : List RawTrade :=
  [{ symbol := some "BTC/USDT", side := "buy", amount := 1, price := 100,
     timestamp := 0, id := "b1" },
   { symbol := some "BTC/USDT", side := "buy", amount := 1, price := 200,
     timestamp := 0, id := "b2" },
   { symbol := some "BTC/USDT", side := "sell", amount := 1, price := 150,
     timestamp := 1, id := "s" }]

/-- The same multiset of trades with the two equal-timestamp buys
swapped. -/
def c5TradesB : List RawTrade :=
  [{ symbol := some "BTC/USDT", side := "buy", amount := 1, price := 200,
     timestamp := 0, id := "b2" },
   { symbol := some "BTC/USDT", side := "buy", amount := 1, price := 100,
     timestamp := 0, id := "b1" },
   { symbol := some "BTC/USDT", side := "sell", amount := 1, price := 150,
     timestamp := 1, id := "s" }]

/-- C5 (counterexample).  Two permuted inputs, each trade keeping its
own timestamp, produce different CompletedTrades lists: with equal
timestamps the stable sort preserves input order, so the sell matches
a different lot (pnl +50 versus -50). -/
theorem fifo_input_order_counterexample :
    c5TradesA.Perm c5TradesB
    ∧ matchTradesFifo c5TradesA ≠ matchTradesFifo c5TradesB := by
  constructor
  · exact List.Perm.swap _ _ _
  · have h1 : matchTradesFifo c5TradesA =
        [{ symbol := "BTC/USDT", buy_price := 100, sell_price := 150,
           amount := 1, buy_timestamp := 0, sell_timestamp := 1,
           pnl := 50, pnl_percentage := 50, is_winning := true }] := by
      norm_num [matchTradesFifo, symbolKeys, dedupFirst, contributes, matchSymbol,
        matchSymbolFull, groupBuys, groupSells, sortTs, List.insertionSort,
        List.orderedInsert, tsLe, fifoWalk, processSell, sideLower, lowerStr_buy,
        lowerStr_sell, c5TradesA, List.dedup, List.pwFilter, Option.getD]
      simp
    have h2 : matchTradesFifo c5TradesB =
        [{ symbol := "BTC/USDT", buy_price := 200, sell_price := 150,
           amount := 1, buy_timestamp := 0, sell_timestamp := 1,
           pnl := -50, pnl_percentage := -25, is_winning := false }] := by
      norm_num [matchTradesFifo, symbolKeys, dedupFirst, contributes, matchSymbol,
        matchSymbolFull, groupBuys, groupSells, sortTs, List.insertionSort,
        List.orderedInsert, tsLe, fifoWalk, processSell, sideLower, lowerStr_buy,
        lowerStr_sell, c5TradesB, List.dedup, List.pwFilter, Option.getD]
      simp
    intro h
    rw [h1, h2] at h
    norm_num at h

/-- Closed witness for the amended C5: a sell-before-buy input and its
sorted permutation, with pairwise distinct timestamps, give identical
per-symbol outputs. -/
theorem fifo_input_order_independent_witness :
    (matchTradesFifo
        [{ symbol := some "BTC/USDT", side := "sell", amount := 1, price := 120,
           timestamp := 1, id := "s" },
         { symbol := some "BTC/USDT", side := "buy", amount := 1, price := 100,
           timestamp := 0, id := "b" }]).filter
        (fun ct => decide (ct.symbol = "BTC/USDT"))
      = (matchTradesFifo
          [{ symbol := some "BTC/USDT", side := "buy", amount := 1, price := 100,
             timestamp := 0, id := "b" },
           { symbol := some "BTC/USDT", side := "sell", amount := 1, price := 120,
             timestamp := 1, id := "s" }]).filter
          (fun ct => decide (ct.symbol = "BTC/USDT")) :=
  fifo_input_order_independent_distinct_ts _ _
    (List.Perm.swap _ _ _)
    (by
      constructor
      · intro u hu _ _
        rw [List.mem_singleton] at hu
        subst hu
        norm_num
      · simp)
    "BTC/USDT"

/-! ### Position invariant of the signal state machines -/

/-- The legal relation between the position `p` carried into a bar and
the row the bar produces: a buy only from flat, moving to long; a sell
only from long, moving to flat; otherwise the position is carried
unchanged, and never both signals at once. -/
def stepOk (p : ℤ) (r : Row) : Prop :=
  (r.buy = 1 → p = 0 ∧ r.pos = 1)
  ∧ (r.sell = 1 → p = 1 ∧ r.pos = 0)
  ∧ ¬(r.buy = 1 ∧ r.sell = 1)
  ∧ (r.buy ≠ 1 → r.sell ≠ 1 → r.pos = p)

/-- `chained p rows`: each row is a legal step from the position its
predecessor carries, starting from `p`. -/
def chained (p : ℤ) : List Row → Prop
  | [] => True
  | r :: rest => stepOk p r ∧ chained r.pos rest

lemma stepOk_hold (p : ℤ) : stepOk p ⟨0, 0, p⟩ := by
  refine ⟨?_, ?_, ?_, ?_⟩ <;> simp

lemma stepOk_buy : stepOk 0 ⟨1, 0, 1⟩ := by
  refine ⟨?_, ?_, ?_, ?_⟩ <;> simp

lemma stepOk_sell : stepOk 1 ⟨0, 1, 0⟩ := by
  refine ⟨?_, ?_, ?_, ?_⟩ <;> simp

lemma stepOk_maStep (pf ps cf cs : Option ℚ) (p : ℤ) :
    stepOk p (maStep pf ps cf cs p) := by
  unfold maStep
  rcases pf with _ | pfv <;> rcases ps with _ | psv <;>
    rcases cf with _ | cfv <;> rcases cs with _ | csv <;>
    try exact stepOk_hold p
  show stepOk p
    (if pfv ≤ psv ∧ csv < cfv ∧ p = 0 then (⟨1, 0, 1⟩ : Row)
     else if psv ≤ pfv ∧ cfv < csv ∧ p = 1 then ⟨0, 1, 0⟩ else ⟨0, 0, p⟩)
  by_cases h1 : pfv ≤ psv ∧ csv < cfv ∧ p = 0
  · rw [if_pos h1, h1.2.2]
    exact stepOk_buy
  · rw [if_neg h1]
    by_cases h2 : psv ≤ pfv ∧ cfv < csv ∧ p = 1
    · rw [if_pos h2, h2.2.2]
      exact stepOk_sell
    · rw [if_neg h2]
      exact stepOk_hold p

lemma stepOk_tlStep (sc rc lb : ℤ) (p : ℤ) : stepOk p (tlStep sc rc lb p) := by
  unfold tlStep
  by_cases h1 : p = 0 ∧ (sc = 1 ∨ rc = 1)
  · rw [if_pos h1, h1.1]
    exact stepOk_buy
  · rw [if_neg h1]
    by_cases h2 : p = 1 ∧ (sc = -1 ∨ rc = -1 ∨ lb = -1)
    · rw [if_pos h2, h2.1]
      exact stepOk_sell
    · rw [if_neg h2]
      exact stepOk_hold p

lemma chained_maRows :
    ∀ (fs ss : List (Option ℚ)) (pf ps : Option ℚ) (p : ℤ),
      chained p (maRows pf ps p fs ss) := by
  intro fs
  induction fs with
  | nil =>
    intro ss pf ps p
    cases ss <;> simp [maRows, chained]
  | cons f fs' ih =>
    intro ss pf ps p
    cases ss with
    | nil => simp [maRows, chained]
    | cons s ss' =>
      refine ⟨stepOk_maStep pf ps f s p, ?_⟩
      exact ih ss' f s (maStep pf ps f s p).pos

lemma chained_tlRows :
    ∀ (crosses : List (ℤ × ℤ × ℤ)) (p : ℤ), chained p (tlRows p crosses) := by
  intro crosses
  induction crosses with
  | nil =>
    intro p
    simp [tlRows, chained]
  | cons c rest ih =>
    intro p
    refine ⟨stepOk_tlStep c.1 c.2.1 c.2.2 p, ?_⟩
    exact ih (tlStep c.1 c.2.1 c.2.2 p).pos

lemma chained_maSignalRows (fast slow : List (Option ℚ)) :
    chained 0 (maSignalRows fast slow) := by
  unfold maSignalRows
  cases fast with
  | nil => simp [chained]
  | cons f fs =>
    cases slow with
    | nil => simp [chained]
    | cons s ss => exact ⟨stepOk_hold 0, chained_maRows fs ss f s 0⟩

lemma chained_tlSignalRows (crosses : List (ℤ × ℤ × ℤ)) :
    chained 0 (tlSignalRows crosses) := by
  unfold tlSignalRows
  cases crosses with
  | nil => simp [chained]
  | cons c rest => exact ⟨stepOk_hold 0, chained_tlRows rest 0⟩

lemma chained_get :
    ∀ (rows : List Row) (p : ℤ), chained p rows →
      ∀ i (h : i + 1 < rows.length),
        stepOk (rows.get ⟨i, by omega⟩).pos (rows.get ⟨i + 1, h⟩) := by
  intro rows
  induction rows with
  | nil =>
    intro p _ i h
    simp at h
  | cons r rest ih =>
    intro p hch i h
    cases i with
    | zero =>
      cases rest with
      | nil => simp at h
      | cons r1 rest' => exact hch.2.1
    | succ i' =>
      have h' : i' + 1 < rest.length := by
        simpa using h
      exact ih r.pos hch.2 i' h'

lemma chained_head (rows : List Row) (p : ℤ) (hch : chained p rows)
    (h0 : 0 < rows.length) : stepOk p (rows.get ⟨0, h0⟩) := by
  cases rows with
  | nil => simp at h0
  | cons r rest => exact hch.1

lemma pos_zero_sell_between (rows : List Row) (hch : chained 0 rows) :
    ∀ j (hj : j < rows.length) i (hi : i < rows.length), i ≤ j →
      (rows.get ⟨i, hi⟩).pos = 1 → (rows.get ⟨j, hj⟩).pos = 0 →
      ∃ k, ∃ hk : k < rows.length, i < k ∧ k ≤ j ∧ (rows.get ⟨k, hk⟩).sell = 1 := by
  intro j
  induction j with
  | zero =>
    intro hj i hi hij hpos1 hpos0
    have : i = 0 := Nat.le_zero.mp hij
    subst this
    rw [hpos1] at hpos0
    exact absurd hpos0 (by norm_num)
  | succ j ihj =>
    intro hj i hi hij hpos1 hpos0
    by_cases hieq : i = j + 1
    · subst hieq
      rw [hpos1] at hpos0
      exact absurd hpos0 (by norm_num)
    · have hij' : i ≤ j := by omega
      have hjlen : j < rows.length := by omega
      have hstep := chained_get rows 0 hch j hj
      by_cases hsell : (rows.get ⟨j + 1, hj⟩).sell = 1
      · exact ⟨j + 1, hj, by omega, le_refl _, hsell⟩
      · by_cases hbuy : (rows.get ⟨j + 1, hj⟩).buy = 1
        · have := (hstep.1 hbuy).2
          rw [this] at hpos0
          exact absurd hpos0 (by norm_num)
        · have hcarry := hstep.2.2.2 hbuy hsell
          rw [hpos0] at hcarry
          obtain ⟨k, hk, h1, h2, h3⟩ :=
            ihj hjlen i hi hij' hpos1 hcarry.symm
          exact ⟨k, hk, h1, by omega, h3⟩

/-- The position invariant a strategy run must satisfy, phrased over
the produced signal rows: a BUY at a bar requires the carried position
to be flat and sets it long on that bar; a SELL requires the carried
position to be long; no SELL can occur at the first bar (whose carried
position is the initial flat state); and between any two BUY bars
there is a strictly intermediate SELL bar. -/
def posInvariant (rows : List Row) : Prop :=
  (∀ i : ℕ, ∀ h : i + 1 < rows.length,
      ((rows.get ⟨i + 1, h⟩).buy = 1 →
        (rows.get ⟨i, by omega⟩).pos = 0 ∧ (rows.get ⟨i + 1, h⟩).pos = 1)
    ∧ ((rows.get ⟨i + 1, h⟩).sell = 1 → (rows.get ⟨i, by omega⟩).pos = 1))
  ∧ (∀ h0 : 0 < rows.length,
      ((rows.get ⟨0, h0⟩).buy = 1 → (rows.get ⟨0, h0⟩).pos = 1)
    ∧ (rows.get ⟨0, h0⟩).sell ≠ 1)
  ∧ (∀ i j : ℕ, ∀ hi : i < rows.length, ∀ hj : j < rows.length, i < j →
      (rows.get ⟨i, hi⟩).buy = 1 → (rows.get ⟨j, hj⟩).buy = 1 →
      ∃ k, ∃ hk : k < rows.length, i < k ∧ k < j ∧ (rows.get ⟨k, hk⟩).sell = 1)

lemma posInvariant_of_chained (rows : List Row) (hch : chained 0 rows) :
    posInvariant rows := by
  have hbuy_pos : ∀ i (hi : i < rows.length),
      (rows.get ⟨i, hi⟩).buy = 1 → (rows.get ⟨i, hi⟩).pos = 1 := by
    intro i hi hbuy
    cases i with
    | zero => exact ((chained_head rows 0 hch hi).1 hbuy).2
    | succ i' => exact ((chained_get rows 0 hch i' hi).1 hbuy).2
  refine ⟨?_, ?_, ?_⟩
  · intro i h
    have hstep := chained_get rows 0 hch i h
    exact ⟨fun hb => ⟨(hstep.1 hb).1, (hstep.1 hb).2⟩,
           fun hs => (hstep.2.1 hs).1⟩
  · intro h0
    have hstep := chained_head rows 0 hch h0
    refine ⟨fun hb => (hstep.1 hb).2, fun hs => ?_⟩
    have := (hstep.2.1 hs).1
    exact absurd this (by norm_num)
  · intro i j hi hj hij hbi hbj
    have hposi : (rows.get ⟨i, hi⟩).pos = 1 := hbuy_pos i hi hbi
    cases j with
    | zero => omega
    | succ j' =>
      have hj' : j' < rows.length := by omega
      have hstep := chained_get rows 0 hch j' hj
      have hposj' : (rows.get ⟨j', by omega⟩).pos = 0 := (hstep.1 hbj).1
      have hij' : i ≤ j' := by omega
      obtain ⟨k, hk, h1, h2, h3⟩ :=
        pos_zero_sell_between rows hch j' hj' i hi hij' hposi hposj'
      exact ⟨k, hk, h1, by omega, h3⟩

/-- C3.  Position invariant of the strategy signal walk: for every
input frame (arbitrary fast/slow MA columns for the MA-crossover
strategy, arbitrary cross/level columns for the trendline-breakout
strategy) the emitted rows satisfy the state-machine invariant — BUY
only from flat, setting long on the same bar; SELL only while long
(never while flat); and never two BUYs without an intervening SELL. -/
theorem strategy_position_invariant (fast slow : List (Option ℚ))
    (crosses : List (ℤ × ℤ × ℤ)) :
    posInvariant (maSignalRows fast slow) ∧ posInvariant (tlSignalRows crosses) :=
  ⟨posInvariant_of_chained _ (chained_maSignalRows fast slow),
   posInvariant_of_chained _ (chained_tlSignalRows crosses)⟩

/-- Closed witness for C3 at concrete inputs. -/
theorem strategy_position_invariant_witness :
    posInvariant (maSignalRows [some 1, some 3] [some 2, some 2])
    ∧ posInvariant (tlSignalRows [(0, 0, 0), (1, 0, 0), (0, -1, 0)]) :=
  strategy_position_invariant [some 1, some 3] [some 2, some 2]
    [(0, 0, 0), (1, 0, 0), (0, -1, 0)]

/-! ### Current-signal derivation -/

lemma mem_of_getLast?_row :
    ∀ (l : List Row) (r : Row), l.getLast? = some r → r ∈ l := by
  intro l
  induction l with
  | nil =>
    intro r h
    simp at h
  | cons a t ih =>
    intro r h
    cases t with
    | nil =>
      rw [List.getLast?_singleton] at h
      rw [Option.some_inj] at h
      subst h
      exact List.mem_singleton_self _
    | cons b t' =>
      rw [List.getLast?_cons_cons] at h
      exact List.mem_cons_of_mem _ (ih r h)

lemma tlStep_pos01 (sc rc lb p : ℤ) (h : p = 0 ∨ p = 1) :
    (tlStep sc rc lb p).pos = 0 ∨ (tlStep sc rc lb p).pos = 1 := by
  unfold tlStep
  split_ifs
  · right
    rfl
  · left
    rfl
  · simpa using h

lemma tlRows_pos01 :
    ∀ (crosses : List (ℤ × ℤ × ℤ)) (p : ℤ), (p = 0 ∨ p = 1) →
      ∀ r ∈ tlRows p crosses, r.pos = 0 ∨ r.pos = 1 := by
  intro crosses
  induction crosses with
  | nil =>
    intro p _ r hr
    simp [tlRows] at hr
  | cons c rest ih =>
    intro p hp r hr
    simp only [tlRows, List.mem_cons] at hr
    rcases hr with rfl | hr
    · exact tlStep_pos01 c.1 c.2.1 c.2.2 p hp
    · exact ih (tlStep c.1 c.2.1 c.2.2 p).pos
        (tlStep_pos01 c.1 c.2.1 c.2.2 p hp) r hr

lemma tlSignalRows_pos01 (crosses : List (ℤ × ℤ × ℤ)) :
    ∀ r ∈ tlSignalRows crosses, r.pos = 0 ∨ r.pos = 1 := by
  unfold tlSignalRows
  cases crosses with
  | nil =>
    intro r hr
    simp at hr
  | cons c rest =>
    intro r hr
    rw [List.mem_cons] at hr
    rcases hr with rfl | hr
    · left
      rfl
    · exact tlRows_pos01 rest 0 (Or.inl rfl) r hr

/-- C6 (amended).  For every non-empty trendline-breakout run, the
current signal is derived from the last row alone by the stated rule —
BUY if its `buy_signal = 1`, else SELL if its `sell_signal = 1`, else
HOLD_LONG if its `position = 1`, else HOLD_CASH (the trendline walk
never reaches `position = -1`, so the HOLD_SHORT case cannot arise). -/
theorem trendline_current_signal_rule (crosses : List (ℤ × ℤ × ℤ)) (r : Row)
    (h : (tlSignalRows crosses).getLast? = some r) :
    tlCurrentSignal (tlSignalRows crosses) = specCurrentSignal r := by
  have hmem : r ∈ tlSignalRows crosses := mem_of_getLast?_row _ r h
  have hpos : r.pos = 0 ∨ r.pos = 1 := tlSignalRows_pos01 crosses r hmem
  unfold tlCurrentSignal specCurrentSignal
  rw [h]
  by_cases hb : r.buy = 1
  · simp [hb]
  · by_cases hs : r.sell = 1
    · simp [hb, hs]
    · by_cases hp : r.pos = 1
      · simp [hb, hs, hp]
      · have h0 : r.pos = 0 := by
          rcases hpos with h0 | h1
          · exact h0
          · exact absurd h1 hp
        simp [hb, hs, hp, h0]

/-- Closed witness for the amended C6 at a one-bar run. -/
theorem trendline_current_signal_rule_witness :
    tlCurrentSignal (tlSignalRows [(0, 0, 0)])
      = specCurrentSignal ⟨0, 0, 0⟩ :=
  trendline_current_signal_rule [(0, 0, 0)] ⟨0, 0, 0⟩ rfl

/-- C6 (counterexample).  The MA-crossover strategy does not follow
the claimed last-row rule: on the close series `[1, 2, 4, 8]` with
fast period 1 and slow period 2 the run never sets `buy_signal` (the
fast MA is above the slow MA from the first defined bar, so no cross
occurs) and its last row is all-zero, yet `generate_signals` reports
BUY — where the claimed rule yields HOLD_CASH. -/
theorem current_signal_rule_counterexample :
    (maGenerate [1, 2, 4, 8] 1 2).2 = Sig.BUY
    ∧ ((maGenerate [1, 2, 4, 8] 1 2).1.getLast?).map specCurrentSignal
        = some Sig.HOLD_CASH
    ∧ Sig.BUY ≠ Sig.HOLD_CASH := by
  refine ⟨?_, ?_, by decide⟩ <;>
    norm_num [maGenerate, smaList, maSignalRows, maRows, maStep,
      maCurrentSignal, specCurrentSignal, List.range_succ]


/-! ### RSI saturation on a rising series -/

lemma gainPart_nonneg (d : Option ℚ) : 0 ≤ gainPart d := by
  rcases d with _ | v
  · simp [gainPart]
  · simp only [gainPart]
    by_cases h : 0 < v
    · rw [if_pos h]
      exact le_of_lt h
    · rw [if_neg h]

lemma seriesDiff_length (prices : List ℚ) :
    (seriesDiff prices).length = prices.length := by
  cases prices with
  | nil => rfl
  | cons a t =>
    simp only [seriesDiff, List.length_cons, List.length_zipWith]
    omega

lemma diffPairs_pos :
    ∀ (l : List ℚ), l.Chain' (· < ·) →
      ∀ d ∈ List.zipWith (fun prev cur => some (cur - prev)) l l.tail,
        ∃ v : ℚ, d = some v ∧ 0 < v := by
  intro l
  induction l with
  | nil => simp
  | cons a t ih =>
    intro hch d hd
    cases t with
    | nil => simp at hd
    | cons b t' =>
      simp only [List.tail_cons, List.zipWith_cons_cons] at hd
      rcases List.mem_cons.mp hd with rfl | hd
      · exact ⟨b - a, rfl, by
          have := (List.chain'_cons.mp hch).1
          linarith⟩
      · have hd' : d ∈ List.zipWith (fun prev cur => some (cur - prev))
            (b :: t') (b :: t').tail := by
          simpa using hd
        exact ih (List.chain'_cons.mp hch).2 d hd'

lemma seriesDiff_shape (prices : List ℚ) (hch : prices.Chain' (· < ·)) :
    ∀ d ∈ seriesDiff prices, d = none ∨ ∃ v : ℚ, d = some v ∧ 0 < v := by
  intro d hd
  cases prices with
  | nil => simp [seriesDiff] at hd
  | cons a t =>
    simp only [seriesDiff, List.mem_cons] at hd
    rcases hd with rfl | hd
    · exact Or.inl rfl
    · have hd' : d ∈ List.zipWith (fun prev cur => some (cur - prev))
          (a :: t) (a :: t).tail := by
        simpa using hd
      exact Or.inr (diffPairs_pos (a :: t) hch d hd')

lemma losses_all_zero (prices : List ℚ) (hch : prices.Chain' (· < ·)) :
    ∀ x ∈ (seriesDiff prices).map lossPart, x = 0 := by
  intro x hx
  rw [List.mem_map] at hx
  obtain ⟨d, hd, rfl⟩ := hx
  rcases seriesDiff_shape prices hch d hd with rfl | ⟨v, rfl, hv⟩
  · rfl
  · simp only [lossPart]
    rw [if_neg (by linarith)]

lemma seriesDiff_getElem_succ (prices : List ℚ) (j : ℕ) (h : j + 1 < prices.length) :
    (seriesDiff prices).get ⟨j + 1, by rw [seriesDiff_length]; exact h⟩
      = some (prices.get ⟨j + 1, h⟩ - prices.get ⟨j, by omega⟩) := by
  cases prices with
  | nil => simp at h
  | cons a t =>
    simp only [seriesDiff, List.get_eq_getElem, List.getElem_cons_succ,
      List.getElem_zipWith]

/-- C9.  RSI boundary: for a strictly rising price series longer than
the period, every RSI value from index `period` onward is defined and
equals exactly 100 — the zero loss-average saturates the indicator
(rather than erroring or propagating NaN), so in particular no value
at those indices is NaN, above 100, or below 0. -/
theorem rsi_saturates_on_rising (prices : List ℚ) (period : ℕ)
    (hp : 0 < period) (hlen : period < prices.length)
    (hmono : prices.Chain' (· < ·)) :
    ∀ i, ∀ hi : i < (calculateRsi prices period).length, period ≤ i →
      (calculateRsi prices period).get ⟨i, hi⟩ = some 100 := by
  obtain ⟨m, rfl⟩ := Nat.exists_eq_succ_of_ne_zero (Nat.pos_iff_ne_zero.mp hp)
  intro i hi hpi
  have hdl : (seriesDiff prices).length = prices.length := seriesDiff_length prices
  have hgl : ((seriesDiff prices).map gainPart).length = prices.length := by
    rw [List.length_map, hdl]
  have hll : ((seriesDiff prices).map lossPart).length = prices.length := by
    rw [List.length_map, hdl]
  have hin : i < prices.length := by
    unfold calculateRsi rollingMean at hi
    simp only [List.length_zipWith, List.length_map, List.length_range, hgl, hll] at hi
    omega
  have hig : i < (rollingMean (m + 1) ((seriesDiff prices).map gainPart)).length := by
    simp [rollingMean, hgl, hin]
  have hil : i < (rollingMean (m + 1) ((seriesDiff prices).map lossPart)).length := by
    simp [rollingMean, hll, hin]
  have hentry : (calculateRsi prices (m + 1)).get ⟨i, hi⟩
      = rsiPoint
          ((rollingMean (m + 1) ((seriesDiff prices).map gainPart)).get ⟨i, hig⟩)
          ((rollingMean (m + 1) ((seriesDiff prices).map lossPart)).get ⟨i, hil⟩) := by
    unfold calculateRsi
    rw [List.get_eq_getElem, List.getElem_zipWith]
    simp
  rw [hentry]
  have hwindow : m + 1 ≤ i + 1 := by omega
  have hgain : (rollingMean (m + 1) ((seriesDiff prices).map gainPart)).get ⟨i, hig⟩
      = some (((((seriesDiff prices).map gainPart).drop (i + 1 - (m + 1))).take (m + 1)).sum
          / ((m + 1 : ℕ) : ℚ)) := by
    unfold rollingMean
    rw [List.get_eq_getElem, List.getElem_map, List.getElem_range, if_pos hwindow]
  have hloss : (rollingMean (m + 1) ((seriesDiff prices).map lossPart)).get ⟨i, hil⟩
      = some (((((seriesDiff prices).map lossPart).drop (i + 1 - (m + 1))).take (m + 1)).sum
          / ((m + 1 : ℕ) : ℚ)) := by
    unfold rollingMean
    rw [List.get_eq_getElem, List.getElem_map, List.getElem_range, if_pos hwindow]
  rw [hgain, hloss]
  have hlzero : ((((seriesDiff prices).map lossPart).drop (i + 1 - (m + 1))).take (m + 1)).sum
      = 0 := by
    apply List.sum_eq_zero
    intro x hx
    exact losses_all_zero prices hmono x
      (List.mem_of_mem_drop (List.mem_of_mem_take hx))
  have hkin : i + 1 - (m + 1) < ((seriesDiff prices).map gainPart).length := by
    rw [hgl]
    omega
  obtain ⟨j, hj⟩ : ∃ j, i + 1 - (m + 1) = j + 1 := ⟨i - (m + 1), by omega⟩
  have hj1 : j + 1 < prices.length := by omega
  have hj1' : j + 1 < ((seriesDiff prices).map gainPart).length := by
    rw [hgl]
    exact hj1
  have hgpos : 0 < ((seriesDiff prices).map gainPart).get ⟨j + 1, hj1'⟩ := by
    rw [List.get_eq_getElem, List.getElem_map]
    have hdj := seriesDiff_getElem_succ prices j hj1
    rw [List.get_eq_getElem] at hdj
    rw [hdj]
    simp only [gainPart]
    have hlt : prices.get ⟨j, by omega⟩ < prices.get ⟨j + 1, hj1⟩ := by
      rw [List.chain'_iff_get] at hmono
      exact hmono j (by omega)
    have hsub : 0 < prices.get ⟨j + 1, hj1⟩ - prices.get ⟨j, by omega⟩ :=
      sub_pos.mpr hlt
    rw [if_pos hsub]
    exact hsub
  have hdropeq : (((seriesDiff prices).map gainPart).drop (j + 1))
      = ((seriesDiff prices).map gainPart).get ⟨j + 1, hj1'⟩
        :: (((seriesDiff prices).map gainPart).drop (j + 1 + 1)) := by
    rw [List.get_eq_getElem]
    exact List.drop_eq_getElem_cons hj1'
  have hsumpos : 0 < ((((seriesDiff prices).map gainPart).drop (i + 1 - (m + 1))).take (m + 1)).sum := by
    rw [hj, hdropeq, List.take_succ_cons, List.sum_cons]
    have hrest : 0 ≤ ((((seriesDiff prices).map gainPart).drop (j + 1 + 1)).take m).sum := by
      apply List.sum_nonneg
      intro x hx
      have hxm : x ∈ ((seriesDiff prices).map gainPart) :=
        List.mem_of_mem_drop (List.mem_of_mem_take hx)
      rw [List.mem_map] at hxm
      obtain ⟨d, _, rfl⟩ := hxm
      exact gainPart_nonneg d
    linarith
  have hdiv : 0 < ((((seriesDiff prices).map gainPart).drop (i + 1 - (m + 1))).take (m + 1)).sum
      / ((m + 1 : ℕ) : ℚ) := by
    apply div_pos hsumpos
    positivity
  rw [hlzero, zero_div]
  simp only [rsiPoint, if_true, eq_self_iff_true]
  rw [if_neg (ne_of_gt hdiv)]

/-- Closed witness for C9 at `prices = [0, 1, 2]`, `period = 1`,
index 1. -/
theorem rsi_saturates_on_rising_witness :
    (calculateRsi [0, 1, 2] 1).get ⟨1, by norm_num [calculateRsi, rollingMean, seriesDiff]⟩
      = some 100 :=
  rsi_saturates_on_rising [0, 1, 2] 1 (by norm_num) (by norm_num)
    (by
      refine List.chain'_cons.mpr ⟨by norm_num, ?_⟩
      refine List.chain'_cons.mpr ⟨by norm_num, ?_⟩
      exact List.chain'_singleton 2)
    1 (by norm_num [calculateRsi, rollingMean, seriesDiff]) (le_refl 1)

/-- Closed witness for the amended C8: a record without a symbol key
is skipped, leaving the matcher output unchanged. -/
theorem missing_symbol_skipped_witness :
    matchTradesFifo
        ([{ symbol := none, side := "buy", amount := 1, price := 100,
            timestamp := 0, id := "x" }].filter (fun t => t.symbol.isSome))
      = matchTradesFifo
          [{ symbol := none, side := "buy", amount := 1, price := 100,
             timestamp := 0, id := "x" }] :=
  missing_symbol_skipped
    [{ symbol := none, side := "buy", amount := 1, price := 100,
       timestamp := 0, id := "x" }]
